import Mathlib

/-!
Verification of the danbooru-tag-expander core: a shallow embedding of
`src/danbooru_tag_expander/utils/tag_expander.py` (the `TagExpander` class)
together with the graph-cache operations it drives.  The tag graph itself
(`DanbooruTagGraph`, an external package) is modelled from the spec where
noted; everything else is translated from the Python source.
-/

/-! ## Python string order

Python compares strings lexicographically by code point (`u < v`,
`sorted([u, v])`).  Lean's built-in `String.lt` does not reduce in the
kernel, so the comparison is re-implemented on the character list. -/

/-- Lexicographic code-point comparison of character lists, as Python's
string `<` behaves. -/
def lexLt : List Char → List Char → Bool
  | [], [] => false
  | [], _ :: _ => true
  | _ :: _, [] => false
  | a :: as, b :: bs => if a = b then lexLt as bs else decide (a.toNat < b.toNat)

/-- Python's `u < v` on strings. -/
def pyLt (u v : String) : Bool := lexLt u.toList v.toList

/-- Python's `tuple(sorted([u, v]))`: the smaller string first. -/
def sort_pair (p : String × String) : String × String :=
  if pyLt p.2 p.1 then (p.2, p.1) else (p.1, p.2)

theorem lexLt_asymm : ∀ u v, lexLt u v = true → lexLt v u = false
  | [], [], h => by simp [lexLt] at h
  | [], _ :: _, _ => by simp [lexLt]
  | _ :: _, [], h => by simp [lexLt] at h
  | a :: as, b :: bs, h => by
    by_cases hab : a = b
    · subst hab
      simp only [lexLt, if_pos rfl] at h ⊢
      exact lexLt_asymm as bs h
    · simp only [lexLt, if_neg hab, decide_eq_true_iff] at h
      have hba : ¬ (b = a) := fun e => hab e.symm
      simp only [lexLt, if_neg hba, decide_eq_false_iff_not]
      omega

theorem lexLt_connex : ∀ u v, lexLt u v = false → lexLt v u = false → u = v
  | [], [], _, _ => rfl
  | [], _ :: _, h, _ => by simp [lexLt] at h
  | _ :: _, [], _, h => by simp [lexLt] at h
  | a :: as, b :: bs, h, h' => by
    by_cases hab : a = b
    · subst hab
      simp only [lexLt, if_pos rfl] at h h'
      rw [lexLt_connex as bs h h']
    · have hba : ¬ (b = a) := fun e => hab e.symm
      simp only [lexLt, if_neg hab, decide_eq_false_iff_not] at h
      simp only [lexLt, if_neg hba, decide_eq_false_iff_not] at h'
      have : a.toNat = b.toNat := by omega
      exact absurd (Char.ext (UInt32.ext this)) hab

theorem pyLt_asymm (u v : String) (h : pyLt u v = true) : pyLt v u = false :=
  lexLt_asymm _ _ h

theorem pyLt_connex (u v : String) (h : pyLt u v = false) (h' : pyLt v u = false) :
    u = v :=
  String.ext (lexLt_connex _ _ h h')

/-- The first component of a sorted pair is never strictly greater. -/
theorem sort_pair_not_gt (p : String × String) :
    pyLt (sort_pair p).2 (sort_pair p).1 = false := by
  unfold sort_pair
  by_cases h : pyLt p.2 p.1 = true
  · simp only [if_pos h]
    exact lexLt_asymm _ _ h
  · simp only [if_neg h]
    exact Bool.not_eq_true _ ▸ (Bool.eq_false_iff.mpr h)

/-! ## Graph data model

Modelled from the spec: the external `DanbooruTagGraph` package (collaborator
TagRelationshipGraph, spec section 4.1) is not part of this repository's
sources.  A tag node carries `deprecated` and `fetched`; the graph keeps at
most one directed edge per ordered pair of names, tagged `implication` or
`alias` (a NetworkX `DiGraph` with an `edge_type` attribute). -/

structure TagNode where
  deprecated : Bool
  fetched : Bool
deriving DecidableEq, Repr

inductive EdgeType where
  | implication
  | alias
deriving DecidableEq, Repr

/-- Whether an edge type is the alias type. -/
def EdgeType.isAlias : EdgeType → Bool
  | .alias => true
  | .implication => false

/-- The graph: an association list of nodes keyed by name, and an association
list of typed directed edges keyed by the ordered pair of endpoint names. -/
structure TagGraph where
  nodes : List (String × TagNode)
  edges : List ((String × String) × EdgeType)
deriving DecidableEq, Repr

/-- Modelled from the spec: node lookup by name. -/
def lookup_node (g : TagGraph) (n : String) : Option TagNode :=
  (g.nodes.find? (fun p => decide (p.1 = n))).map (fun p => p.2)

/-- Modelled from the spec: `is_tag_fetched` — the node exists and its
relationships have been retrieved. -/
def is_tag_fetched (g : TagGraph) (n : String) : Bool :=
  match lookup_node g n with
  | some nd => nd.fetched
  | none => false

/-- Modelled from the spec: a node's deprecated flag (absent node counts as
not deprecated). -/
def is_deprecated (g : TagGraph) (n : String) : Bool :=
  match lookup_node g n with
  | some nd => nd.deprecated
  | none => false

/-- Modelled from the spec: `add_tag` upserts a node; existing attributes are
overwritten (later fetch results win). -/
def add_tag (g : TagGraph) (n : String) (depr f : Bool) : TagGraph :=
  if g.nodes.any (fun p => decide (p.1 = n)) then
    { g with nodes := g.nodes.map (fun p => if p.1 = n then (n, ⟨depr, f⟩) else p) }
  else
    { g with nodes := g.nodes ++ [(n, ⟨depr, f⟩)] }

/-- Modelled from the spec: edge insertion auto-creates absent endpoints as
unfetched placeholders. -/
def ensure_node (g : TagGraph) (n : String) : TagGraph :=
  if g.nodes.any (fun p => decide (p.1 = n)) then g
  else { g with nodes := g.nodes ++ [(n, ⟨false, false⟩)] }

/-- Modelled from the spec: inserting a directed typed edge; at most one edge
per ordered pair (inserting over an existing key overwrites its type, as
NetworkX `add_edge` overwrites attributes; re-inserting the same edge is a
no-op). -/
def add_edge_raw (g : TagGraph) (a b : String) (ty : EdgeType) : TagGraph :=
  let g1 := ensure_node (ensure_node g a) b
  if g1.edges.any (fun e => decide (e.1 = (a, b))) then
    { g1 with edges := g1.edges.map (fun e => if e.1 = (a, b) then ((a, b), ty) else e) }
  else
    { g1 with edges := g1.edges ++ [((a, b), ty)] }

/-- Modelled from the spec: `add_implication`. -/
def add_implication (g : TagGraph) (a b : String) : TagGraph :=
  add_edge_raw g a b EdgeType.implication

/-- Modelled from the spec: `add_alias`. -/
def add_alias (g : TagGraph) (a b : String) : TagGraph :=
  add_edge_raw g a b EdgeType.alias

/-- NetworkX `graph.remove_edge(a, b)`: drop the edge keyed `(a, b)`. -/
def remove_edge (g : TagGraph) (a b : String) : TagGraph :=
  { g with edges := g.edges.filter (fun e => decide (¬ e.1 = (a, b))) }

/-- NetworkX `graph.has_edge(a, b)`. -/
def has_edge (g : TagGraph) (a b : String) : Bool :=
  g.edges.any (fun e => decide (e.1 = (a, b)))

/-- Whether an alias edge `a → b` is present. -/
def has_alias (g : TagGraph) (a b : String) : Bool :=
  g.edges.any (fun e => decide (e.1 = (a, b) ∧ e.2 = EdgeType.alias))

/-- Modelled from the spec: `get_unfetched_tags` — the subset of the
candidates whose node is absent or unfetched. -/
def get_unfetched_tags (g : TagGraph) (cands : List String) : List String :=
  cands.filter (fun t => ! is_tag_fetched g t)

/-- Modelled from the spec: `is_canonical` — true iff the tag has zero
outgoing alias edges. -/
def is_canonical (g : TagGraph) (t : String) : Bool :=
  ! g.edges.any (fun e => decide (e.1.1 = t ∧ e.2 = EdgeType.alias))

/-- The `(u, v)` endpoint pairs of all alias edges, in edge-list order
(`[(u, v) for u, v, data in graph.edges(data=True) if edge_type == 'alias']`). -/
def alias_edge_list (g : TagGraph) : List (String × String) :=
  g.edges.filterMap (fun e => if e.2.isAlias then some e.1 else none)

/-! ## DirectionalityValidator

Translated from `TagExpander._validate_alias_directionality`
(tag_expander.py lines 595-679). -/

/-- The set of unordered pairs with alias edges in both directions, each as a
sorted tuple (`tuple(sorted([u, v]))`), deduplicated. -/
def bidirectional_pairs (g : TagGraph) : List (String × String) :=
  (((alias_edge_list g).filter
      (fun p => (alias_edge_list g).any (fun q => decide (q = (p.2, p.1))))).map
    sort_pair).dedup

/-- The validator's ordered direction rule for a bidirectional pair: canonical
status first, then name length, then alphabetical order; the result is
`(antecedent, consequent)` (lines 627-659). -/
def resolve_direction (uCanon vCanon : Bool) (u v : String) : String × String :=
  if !uCanon && vCanon then (u, v)
  else if uCanon && !vCanon then (v, u)
  else if u.length < v.length then (v, u)
  else if v.length < u.length then (u, v)
  else if pyLt u v then (v, u)
  else (u, v)

/-- One iteration of the validator's fix loop: query canonical status, remove
both directed edges, re-insert the resolved direction (lines 624-674). -/
def fix_pair (g : TagGraph) (p : String × String) : TagGraph :=
  let dir := resolve_direction (is_canonical g p.1) (is_canonical g p.2) p.1 p.2
  add_alias (remove_edge (remove_edge g p.1 p.2) p.2 p.1) dir.1 dir.2

/-- `_validate_alias_directionality`: enumerate the bidirectional pairs of the
current graph once, then fix each. -/
def validate_alias_directionality (g : TagGraph) : TagGraph :=
  (bidirectional_pairs g).foldl fix_pair g

/-! ## Basic lemmas about the graph operations -/

theorem has_alias_iff (g : TagGraph) (a b : String) :
    has_alias g a b = true ↔ ((a, b), EdgeType.alias) ∈ g.edges := by
  unfold has_alias
  rw [List.any_eq_true]
  constructor
  · rintro ⟨e, he, hd⟩
    rw [decide_eq_true_iff] at hd
    obtain ⟨k, ty⟩ := e
    obtain ⟨h1, h2⟩ := hd
    dsimp only at h1 h2
    rw [h1, h2] at he
    exact he
  · intro h
    exact ⟨_, h, by simp⟩

theorem ensure_node_edges (g : TagGraph) (n : String) :
    (ensure_node g n).edges = g.edges := by
  unfold ensure_node
  split <;> rfl

theorem add_tag_edges (g : TagGraph) (n : String) (d f : Bool) :
    (add_tag g n d f).edges = g.edges := by
  unfold add_tag
  split <;> rfl

theorem remove_edge_nodes (g : TagGraph) (a b : String) :
    (remove_edge g a b).nodes = g.nodes := rfl

theorem add_edge_raw_nodes (g : TagGraph) (a b : String) (ty : EdgeType) :
    (add_edge_raw g a b ty).nodes = (ensure_node (ensure_node g a) b).nodes := by
  unfold add_edge_raw
  dsimp only
  split <;> rfl

theorem mem_edges_add_edge_raw (g : TagGraph) (a b : String) (ty : EdgeType)
    (k : String × String) (t : EdgeType) :
    (k, t) ∈ (add_edge_raw g a b ty).edges ↔
      (k = (a, b) ∧ t = ty) ∨ (k ≠ (a, b) ∧ (k, t) ∈ g.edges) := by
  unfold add_edge_raw
  have hE : (ensure_node (ensure_node g a) b).edges = g.edges := by
    rw [ensure_node_edges, ensure_node_edges]
  by_cases hex : g.edges.any (fun e => decide (e.1 = (a, b))) = true
  · rw [if_pos (by rw [hE]; exact hex)]
    dsimp only
    rw [hE]
    rw [List.mem_map]
    constructor
    · rintro ⟨e, he, hfe⟩
      by_cases hk : e.1 = (a, b)
      · rw [if_pos hk] at hfe
        left
        exact ⟨(congrArg Prod.fst hfe).symm, (congrArg Prod.snd hfe).symm⟩
      · rw [if_neg hk] at hfe
        subst hfe
        right
        exact ⟨fun hkab => hk hkab, he⟩
    · rintro (⟨hk, ht⟩ | ⟨hk, hm⟩)
      · rw [List.any_eq_true] at hex
        obtain ⟨e, he, hd⟩ := hex
        rw [decide_eq_true_iff] at hd
        exact ⟨e, he, by rw [if_pos hd, hk, ht]⟩
      · exact ⟨(k, t), hm, by rw [if_neg hk]⟩
  · rw [if_neg (by rw [hE]; exact hex)]
    dsimp only
    rw [hE]
    rw [List.mem_append, List.mem_singleton]
    constructor
    · rintro (hm | he)
      · right
        refine ⟨?_, hm⟩
        intro hk
        apply hex
        rw [List.any_eq_true]
        exact ⟨(k, t), hm, by rw [decide_eq_true_iff]; exact hk⟩
      · left
        exact ⟨(congrArg Prod.fst he), (congrArg Prod.snd he)⟩
    · rintro (⟨hk, ht⟩ | ⟨_, hm⟩)
      · right
        rw [hk, ht]
      · left
        exact hm

theorem has_alias_add_alias (g : TagGraph) (a b x y : String) :
    has_alias (add_alias g a b) x y = true ↔
      ((x, y) = (a, b) ∨ has_alias g x y = true) := by
  unfold add_alias
  rw [has_alias_iff, mem_edges_add_edge_raw, has_alias_iff]
  by_cases hk : (x, y) = (a, b)
  · simp [hk]
  · simp [hk]

theorem has_alias_add_alias_other (g : TagGraph) (a b x y : String)
    (h : (x, y) ≠ (a, b)) :
    has_alias (add_alias g a b) x y = has_alias g x y := by
  by_cases hg : has_alias g x y = true
  · rw [hg, (has_alias_add_alias g a b x y).mpr (Or.inr hg)]
  · rw [Bool.eq_false_iff.mpr hg, Bool.eq_false_iff]
    intro hcontra
    rcases (has_alias_add_alias g a b x y).mp hcontra with hk | hgt
    · exact h hk
    · exact hg hgt

theorem has_alias_remove_edge (g : TagGraph) (a b x y : String) :
    has_alias (remove_edge g a b) x y = true ↔
      (has_alias g x y = true ∧ (x, y) ≠ (a, b)) := by
  unfold remove_edge
  rw [has_alias_iff, has_alias_iff]
  dsimp only
  rw [List.mem_filter, decide_eq_true_iff]

theorem has_alias_remove_edge_other (g : TagGraph) (a b x y : String)
    (h : (x, y) ≠ (a, b)) :
    has_alias (remove_edge g a b) x y = has_alias g x y := by
  by_cases hg : has_alias g x y = true
  · rw [hg, (has_alias_remove_edge g a b x y).mpr ⟨hg, h⟩]
  · rw [Bool.eq_false_iff.mpr hg, Bool.eq_false_iff]
    intro hcontra
    exact hg ((has_alias_remove_edge g a b x y).mp hcontra).1

theorem has_alias_remove_edge_self (g : TagGraph) (a b : String) :
    has_alias (remove_edge g a b) a b = false := by
  rw [Bool.eq_false_iff]
  intro h
  exact ((has_alias_remove_edge g a b a b).mp h).2 rfl

theorem mem_alias_edge_list (g : TagGraph) (p : String × String) :
    p ∈ alias_edge_list g ↔ has_alias g p.1 p.2 = true := by
  unfold alias_edge_list
  rw [has_alias_iff, List.mem_filterMap]
  constructor
  · rintro ⟨e, he, hfe⟩
    by_cases ha : e.2.isAlias = true
    · rw [if_pos ha] at hfe
      obtain ⟨k, ty⟩ := e
      cases ty
      · exact absurd ha (by simp [EdgeType.isAlias])
      · rw [Option.some_inj] at hfe
        dsimp only at hfe
        rw [hfe] at he
        exact he
    · rw [if_neg ha] at hfe
      exact absurd hfe (by simp)
  · intro h
    exact ⟨((p.1, p.2), EdgeType.alias), h, by simp [EdgeType.isAlias]⟩

theorem is_canonical_eq_false (g : TagGraph) (t w : String)
    (h : has_alias g t w = true) : is_canonical g t = false := by
  unfold is_canonical
  rw [has_alias_iff] at h
  rw [Bool.not_eq_false', List.any_eq_true]
  exact ⟨((t, w), EdgeType.alias), h, by simp⟩

/-! ## Validator lemmas -/

theorem resolve_direction_cases (c1 c2 : Bool) (u v : String) :
    resolve_direction c1 c2 u v = (u, v) ∨ resolve_direction c1 c2 u v = (v, u) := by
  unfold resolve_direction
  split
  · left; rfl
  · split
    · right; rfl
    · split
      · right; rfl
      · split
        · left; rfl
        · split
          · right; rfl
          · left; rfl

theorem fix_pair_other (g : TagGraph) (q : String × String) (x y : String)
    (h1 : (x, y) ≠ (q.1, q.2)) (h2 : (x, y) ≠ (q.2, q.1)) :
    has_alias (fix_pair g q) x y = has_alias g x y := by
  unfold fix_pair
  rcases resolve_direction_cases (is_canonical g q.1) (is_canonical g q.2) q.1 q.2 with
    hd | hd <;> rw [hd] <;> dsimp only <;>
    rw [has_alias_add_alias_other _ _ _ _ _ (by first | exact h1 | exact h2),
      has_alias_remove_edge_other _ _ _ _ _ h2, has_alias_remove_edge_other _ _ _ _ _ h1]

theorem fix_pair_resolved (g : TagGraph) (q : String × String) (hne : q.1 ≠ q.2) :
    has_alias (fix_pair g q)
      (resolve_direction (is_canonical g q.1) (is_canonical g q.2) q.1 q.2).1
      (resolve_direction (is_canonical g q.1) (is_canonical g q.2) q.1 q.2).2 = true ∧
    has_alias (fix_pair g q)
      (resolve_direction (is_canonical g q.1) (is_canonical g q.2) q.1 q.2).2
      (resolve_direction (is_canonical g q.1) (is_canonical g q.2) q.1 q.2).1 = false := by
  have hk21 : ((q.2 : String), q.1) ≠ (q.1, q.2) := fun h => hne (congrArg Prod.snd h)
  have hk12 : ((q.1 : String), q.2) ≠ (q.2, q.1) := fun h => hne (congrArg Prod.fst h)
  unfold fix_pair
  rcases resolve_direction_cases (is_canonical g q.1) (is_canonical g q.2) q.1 q.2 with
    hd | hd <;> rw [hd] <;> dsimp only
  · refine ⟨(has_alias_add_alias _ _ _ _ _).mpr (Or.inl rfl), ?_⟩
    rw [has_alias_add_alias_other _ _ _ _ _ hk21]
    exact has_alias_remove_edge_self _ q.2 q.1
  · refine ⟨(has_alias_add_alias _ _ _ _ _).mpr (Or.inl rfl), ?_⟩
    rw [has_alias_add_alias_other _ _ _ _ _ hk12,
      has_alias_remove_edge_other _ _ _ _ _ hk12]
    exact has_alias_remove_edge_self g q.1 q.2

theorem sort_pair_cases (p : String × String) :
    sort_pair p = p ∨ sort_pair p = (p.2, p.1) := by
  unfold sort_pair
  split
  · right; rfl
  · left; rfl

theorem mem_bidirectional_pairs_sorted (g : TagGraph) (p : String × String)
    (h : p ∈ bidirectional_pairs g) : pyLt p.2 p.1 = false := by
  unfold bidirectional_pairs at h
  rw [List.mem_dedup, List.mem_map] at h
  obtain ⟨q, _, hq⟩ := h
  rw [← hq]
  exact sort_pair_not_gt q

theorem mem_bidirectional_pairs_both (g : TagGraph) (p : String × String)
    (h : p ∈ bidirectional_pairs g) :
    has_alias g p.1 p.2 = true ∧ has_alias g p.2 p.1 = true := by
  unfold bidirectional_pairs at h
  rw [List.mem_dedup, List.mem_map] at h
  obtain ⟨q, hqf, hq⟩ := h
  rw [List.mem_filter] at hqf
  obtain ⟨hq1, hq2⟩ := hqf
  rw [List.any_eq_true] at hq2
  obtain ⟨q', hq', hdq⟩ := hq2
  rw [decide_eq_true_iff] at hdq
  subst hdq
  have h1 : has_alias g q.1 q.2 = true := (mem_alias_edge_list g q).mp hq1
  have h2 : has_alias g q.2 q.1 = true := (mem_alias_edge_list g (q.2, q.1)).mp hq'
  rcases sort_pair_cases q with hs | hs
  · rw [← hq, hs]
    exact ⟨h1, h2⟩
  · rw [← hq, hs]
    exact ⟨h2, h1⟩

theorem sort_pair_mem_bidirectional_pairs (g : TagGraph) (x y : String)
    (h1 : has_alias g x y = true) (h2 : has_alias g y x = true) :
    sort_pair (x, y) ∈ bidirectional_pairs g := by
  unfold bidirectional_pairs
  rw [List.mem_dedup, List.mem_map]
  refine ⟨(x, y), ?_, rfl⟩
  rw [List.mem_filter]
  refine ⟨(mem_alias_edge_list g (x, y)).mpr h1, ?_⟩
  rw [List.any_eq_true]
  exact ⟨(y, x), (mem_alias_edge_list g (y, x)).mpr h2, by rw [decide_eq_true_iff]⟩

theorem nodup_bidirectional_pairs (g : TagGraph) : (bidirectional_pairs g).Nodup :=
  List.nodup_dedup _

/-- Two distinct sorted pairs touch four pairwise different ordered keys. -/
theorem sorted_pair_keys_disjoint (p q : String × String)
    (hp : pyLt p.2 p.1 = false) (hq : pyLt q.2 q.1 = false) (hpq : p ≠ q) :
    (p.1, p.2) ≠ (q.1, q.2) ∧ (p.1, p.2) ≠ (q.2, q.1) ∧
    (p.2, p.1) ≠ (q.1, q.2) ∧ (p.2, p.1) ≠ (q.2, q.1) := by
  refine ⟨?_, ?_, ?_, ?_⟩
  · intro hc
    obtain ⟨h1, h2⟩ := Prod.ext_iff.mp hc
    exact hpq (Prod.ext_iff.mpr ⟨h1, h2⟩)
  · intro hc
    obtain ⟨h1, h2⟩ := Prod.ext_iff.mp hc
    dsimp only at h1 h2
    have hq' : q.1 = q.2 := by
      apply pyLt_connex
      · rw [← h1, ← h2]; exact hp
      · exact hq
    exact hpq (Prod.ext_iff.mpr ⟨by rw [h1, hq'], by rw [h2, ← hq']⟩)
  · intro hc
    obtain ⟨h1, h2⟩ := Prod.ext_iff.mp hc
    dsimp only at h1 h2
    have hq' : q.1 = q.2 := by
      apply pyLt_connex
      · rw [← h2, ← h1]; exact hp
      · exact hq
    exact hpq (Prod.ext_iff.mpr ⟨by rw [h2, ← hq'], by rw [h1, hq']⟩)
  · intro hc
    obtain ⟨h1, h2⟩ := Prod.ext_iff.mp hc
    dsimp only at h1 h2
    exact hpq (Prod.ext_iff.mpr ⟨h2, h1⟩)

/-- Folding the fix over pairs other than `p` does not touch the two ordered
keys of `p`. -/
theorem foldl_fix_pair_preserves :
    ∀ (l : List (String × String)) (h : TagGraph) (p : String × String),
      (∀ q ∈ l, pyLt q.2 q.1 = false) → pyLt p.2 p.1 = false → p ∉ l →
      has_alias (l.foldl fix_pair h) p.1 p.2 = has_alias h p.1 p.2 ∧
      has_alias (l.foldl fix_pair h) p.2 p.1 = has_alias h p.2 p.1
  | [], h, p, _, _, _ => ⟨rfl, rfl⟩
  | q :: l, h, p, hsort, hp, hnm => by
    have hq : pyLt q.2 q.1 = false := hsort q (List.mem_cons_self q l)
    have hne : p ≠ q := fun hc => hnm (hc ▸ List.mem_cons_self q l)
    obtain ⟨hk1, hk2, hk3, hk4⟩ := sorted_pair_keys_disjoint p q hp hq hne
    rw [List.foldl_cons]
    have ih := foldl_fix_pair_preserves l (fix_pair h q) p
      (fun r hr => hsort r (List.mem_cons_of_mem q hr)) hp
      (fun hc => hnm (List.mem_cons_of_mem q hc))
    refine ⟨?_, ?_⟩
    · rw [ih.1, fix_pair_other h q p.1 p.2 hk1 hk2]
    · rw [ih.2, fix_pair_other h q p.2 p.1 hk3 hk4]

/-- Core invariant of the fix loop: if every distinct bidirectional pair of
the running graph is still scheduled, no distinct bidirectional pair is left
at the end. -/
theorem no_bidir_foldl :
    ∀ (rest : List (String × String)) (h : TagGraph),
      (∀ x y, x ≠ y → has_alias h x y = true → has_alias h y x = true →
        sort_pair (x, y) ∈ rest) →
      ∀ x y, x ≠ y →
        ¬ (has_alias (rest.foldl fix_pair h) x y = true ∧
           has_alias (rest.foldl fix_pair h) y x = true)
  | [], h, hcap, x, y, hxy, hcontra => by
    simp only [List.foldl_nil] at hcontra
    exact absurd (hcap x y hxy hcontra.1 hcontra.2) (List.not_mem_nil _)
  | q :: rest, h, hcap, x, y, hxy, hcontra => by
    rw [List.foldl_cons] at hcontra
    refine no_bidir_foldl rest (fix_pair h q) ?_ x y hxy hcontra
    intro a b hab ha hb
    by_cases hk1 : ((a : String), b) = (q.1, q.2)
    · obtain ⟨ha1, hb1⟩ := Prod.ext_iff.mp hk1
      dsimp only at ha1 hb1
      subst ha1
      subst hb1
      have hrv := (fix_pair_resolved h q hab).2
      rcases resolve_direction_cases (is_canonical h q.1) (is_canonical h q.2) q.1 q.2
        with hd | hd <;> rw [hd] at hrv <;> dsimp only at hrv
      · exact absurd (hb.symm.trans hrv) (by decide)
      · exact absurd (ha.symm.trans hrv) (by decide)
    · by_cases hk2 : ((a : String), b) = (q.2, q.1)
      · obtain ⟨ha1, hb1⟩ := Prod.ext_iff.mp hk2
        dsimp only at ha1 hb1
        subst ha1
        subst hb1
        have hne' : q.1 ≠ q.2 := fun hc => hab hc.symm
        have hrv := (fix_pair_resolved h q hne').2
        rcases resolve_direction_cases (is_canonical h q.1) (is_canonical h q.2) q.1 q.2
          with hd | hd <;> rw [hd] at hrv <;> dsimp only at hrv
        · exact absurd (ha.symm.trans hrv) (by decide)
        · exact absurd (hb.symm.trans hrv) (by decide)
      · have hk1' : ((b : String), a) ≠ (q.1, q.2) := by
          intro hc
          obtain ⟨h1, h2⟩ := Prod.ext_iff.mp hc
          dsimp only at h1 h2
          exact hk2 (Prod.ext_iff.mpr ⟨h2, h1⟩)
        have hk2' : ((b : String), a) ≠ (q.2, q.1) := by
          intro hc
          obtain ⟨h1, h2⟩ := Prod.ext_iff.mp hc
          dsimp only at h1 h2
          exact hk1 (Prod.ext_iff.mpr ⟨h2, h1⟩)
        rw [fix_pair_other h q a b hk1 hk2] at ha
        rw [fix_pair_other h q b a hk1' hk2'] at hb
        rcases List.mem_cons.mp (hcap a b hab ha hb) with heq | hm
        · rcases sort_pair_cases (a, b) with hs | hs
          · exact absurd (hs.symm.trans heq) hk1
          · have hba := hs.symm.trans heq
            obtain ⟨h1, h2⟩ := Prod.ext_iff.mp hba
            dsimp only at h1 h2
            exact absurd (Prod.ext_iff.mpr ⟨h2, h1⟩) hk2
        · exact hm

/-- After the validator runs, no unordered pair of distinct tags has alias
edges in both directions. -/
theorem validate_no_bidirectional (g : TagGraph) (x y : String) (hxy : x ≠ y) :
    ¬ (has_alias (validate_alias_directionality g) x y = true ∧
       has_alias (validate_alias_directionality g) y x = true) := by
  unfold validate_alias_directionality
  exact no_bidir_foldl (bidirectional_pairs g) g
    (fun a b _ ha hb => sort_pair_mem_bidirectional_pairs g a b ha hb) x y hxy

/-- An already-consistent graph (no bidirectional alias pairs at all) is left
untouched by the validator. -/
theorem validate_of_no_pairs (g : TagGraph) (h : bidirectional_pairs g = []) :
    validate_alias_directionality g = g := by
  unfold validate_alias_directionality
  rw [h]
  rfl

theorem validate_split (g : TagGraph) (l1 l2 : List (String × String))
    (p : String × String) (hsplit : bidirectional_pairs g = l1 ++ p :: l2) :
    validate_alias_directionality g =
      l2.foldl fix_pair (fix_pair (l1.foldl fix_pair g) p) := by
  unfold validate_alias_directionality
  rw [hsplit, List.foldl_append, List.foldl_cons]

/-- When the fix loop reaches a pair, both of its directed alias edges are
still in the graph: earlier fixes only touched the keys of their own pairs. -/
theorem bidir_pair_present_at_fix (g : TagGraph) (l1 l2 : List (String × String))
    (p : String × String) (hsplit : bidirectional_pairs g = l1 ++ p :: l2) :
    has_alias (l1.foldl fix_pair g) p.1 p.2 = true ∧
    has_alias (l1.foldl fix_pair g) p.2 p.1 = true := by
  have hpmem : p ∈ bidirectional_pairs g := by
    rw [hsplit]
    exact List.mem_append_right _ (List.mem_cons_self p l2)
  have hboth := mem_bidirectional_pairs_both g p hpmem
  have hsorted : ∀ q ∈ l1, pyLt q.2 q.1 = false := fun q hq =>
    mem_bidirectional_pairs_sorted g q (by rw [hsplit]; exact List.mem_append_left _ hq)
  have hpsorted := mem_bidirectional_pairs_sorted g p hpmem
  have hnodup := nodup_bidirectional_pairs g
  rw [hsplit, List.nodup_append] at hnodup
  have hpnot : p ∉ l1 := fun hc => hnodup.2.2 hc (List.mem_cons_self p l2)
  have hpres := foldl_fix_pair_preserves l1 g p hsorted hpsorted hpnot
  rw [hpres.1, hpres.2]
  exact hboth

/-- The fixes scheduled after a pair do not touch that pair's two keys, so
the validator's final graph agrees with the state right after the pair's own
fix on those keys. -/
theorem validate_keeps_fix_result (g : TagGraph) (l1 l2 : List (String × String))
    (p : String × String) (hsplit : bidirectional_pairs g = l1 ++ p :: l2) :
    has_alias (validate_alias_directionality g) p.1 p.2 =
      has_alias (fix_pair (l1.foldl fix_pair g) p) p.1 p.2 ∧
    has_alias (validate_alias_directionality g) p.2 p.1 =
      has_alias (fix_pair (l1.foldl fix_pair g) p) p.2 p.1 := by
  rw [validate_split g l1 l2 p hsplit]
  have hpmem : p ∈ bidirectional_pairs g := by
    rw [hsplit]
    exact List.mem_append_right _ (List.mem_cons_self p l2)
  have hsorted : ∀ q ∈ l2, pyLt q.2 q.1 = false := fun q hq =>
    mem_bidirectional_pairs_sorted g q
      (by rw [hsplit]; exact List.mem_append_right _ (List.mem_cons_of_mem p hq))
  have hpsorted := mem_bidirectional_pairs_sorted g p hpmem
  have hnodup := nodup_bidirectional_pairs g
  rw [hsplit, List.nodup_append, List.nodup_cons] at hnodup
  exact foldl_fix_pair_preserves l2 _ p hsorted hpsorted hnodup.2.1.1

/-! ## RateLimitedSource and the fetch machinery

Translated from `TagExpander._api_request`, `_fetch_tag_deprecated_status`,
`_fetch_tag_implications`, `_fetch_tag_aliases`, `_batch_fetch_tags`,
`_ensure_all_tags_fetched` and `expand_tags` (tag_expander.py lines 109-274).
The remote source is a triple of fallible lookups; `Except.error ()` is the
`RateLimitError` signal.  A run threads a `FetchState` carrying the shared
graph, the last auto-saved snapshot, and traces of the remote calls made and
graph operations performed. -/

structure Remote where
  deprecated : String → Except Unit Bool
  implications : String → Except Unit (List String)
  aliases : String → Except Unit (List String)

inductive RemoteCall where
  | deprCall (t : String)
  | implCall (t : String)
  | aliasCall (t : String)
deriving DecidableEq, Repr

inductive GraphOp where
  | addTagOp (n : String) (depr f : Bool)
  | addImplicationOp (a b : String)
  | addAliasOp (a b : String)
deriving DecidableEq, Repr

/-- Apply one graph mutation. -/
def apply_op (g : TagGraph) : GraphOp → TagGraph
  | .addTagOp n d f => add_tag g n d f
  | .addImplicationOp a b => add_implication g a b
  | .addAliasOp a b => add_alias g a b

/-- State threaded through a fetch run: the shared graph, the auto-saved
snapshot, and the traces of remote calls and graph operations. -/
structure FetchState where
  graph : TagGraph
  saved : TagGraph
  calls : List RemoteCall
  ops : List GraphOp
deriving DecidableEq, Repr

/-- Record one remote call in the trace. -/
def record_call (s : FetchState) (c : RemoteCall) : FetchState :=
  { s with calls := s.calls ++ [c] }

/-- Perform and record one graph operation. -/
def record_op (s : FetchState) (op : GraphOp) : FetchState :=
  { s with graph := apply_op s.graph op, ops := s.ops ++ [op] }

/-- One `_fetch_tag_deprecated_status` lookup (line 276): a remote call that
may carry the rate-limit signal. -/
def remote_deprecated (r : Remote) (s : FetchState) (t : String) :
    Except Unit Bool × FetchState :=
  (r.deprecated t, record_call s (RemoteCall.deprCall t))

/-- The per-candidate deprecated filter inside `_fetch_tag_implications` and
`_fetch_tag_aliases`: keep the candidates that are not deprecated; a
rate-limit signal aborts the rest. -/
def filter_non_deprecated (r : Remote) : FetchState → List String →
    Except Unit (List String) × FetchState
  | s, [] => (.ok [], s)
  | s, c :: cs =>
    match remote_deprecated r s c with
    | (.error e, s1) => (.error e, s1)
    | (.ok d, s1) =>
      match filter_non_deprecated r s1 cs with
      | (.error e, s2) => (.error e, s2)
      | (.ok rest, s2) => (.ok (if d then rest else c :: rest), s2)

/-- `_fetch_tag_implications` (lines 298-324): the active consequents where
`t` is the antecedent, each kept only if not deprecated. -/
def fetch_tag_implications (r : Remote) (s : FetchState) (t : String) :
    Except Unit (List String) × FetchState :=
  match r.implications t with
  | .error e => (.error e, record_call s (RemoteCall.implCall t))
  | .ok cands => filter_non_deprecated r (record_call s (RemoteCall.implCall t)) cands

/-- `_fetch_tag_aliases` (lines 326-371): the active alias consequents where
`t` is the antecedent, each kept only if not deprecated. -/
def fetch_tag_aliases (r : Remote) (s : FetchState) (t : String) :
    Except Unit (List String) × FetchState :=
  match r.aliases t with
  | .error e => (.error e, record_call s (RemoteCall.aliasCall t))
  | .ok cands => filter_non_deprecated r (record_call s (RemoteCall.aliasCall t)) cands

/-- The implication loop of `_batch_fetch_tags` (lines 247-249). -/
def record_implications (t : String) : FetchState → List String → FetchState
  | s, [] => s
  | s, c :: cs => record_implications t (record_op s (GraphOp.addImplicationOp t c)) cs

/-- One iteration of the alias loop of `_batch_fetch_tags` (lines 254-265):
record the directed alias edge and, when the consequent is not yet fetched,
mark it fetched without retrieving its own relationships. -/
def mark_alias_step (t c : String) (s : FetchState) : FetchState :=
  let s1 := record_op s (GraphOp.addAliasOp t c)
  if is_tag_fetched s1.graph c then s1
  else record_op s1 (GraphOp.addTagOp c false true)

/-- The alias loop of `_batch_fetch_tags` (lines 254-265). -/
def mark_aliases (t : String) : FetchState → List String → FetchState
  | s, [] => s
  | s, c :: cs => mark_aliases t (mark_alias_step t c s) cs

/-- The body of `_batch_fetch_tags` for one tag (lines 232-272), returning the
newly discovered related tags. -/
def fetch_tag (r : Remote) (s : FetchState) (t : String) :
    Except Unit (List String) × FetchState :=
  match remote_deprecated r s t with
  | (.error e, s1) => (.error e, s1)
  | (.ok true, s1) => (.ok [], record_op s1 (GraphOp.addTagOp t true true))
  | (.ok false, s1) =>
    match fetch_tag_implications r s1 t with
    | (.error e, s2) => (.error e, s2)
    | (.ok impls, s2) =>
      match fetch_tag_aliases r s2 t with
      | (.error e, s3) => (.error e, s3)
      | (.ok als, s3) =>
        let s4 := record_op s3 (GraphOp.addTagOp t false true)
        let s5 := record_implications t s4 impls
        let s6 := mark_aliases t s5 als
        (.ok (impls ++ als), s6)

/-- `_batch_fetch_tags` (lines 224-274): fetch each tag in order; a rate-limit
signal aborts the remaining tags of the batch (state so far is kept). -/
def batch_fetch_tags (r : Remote) : FetchState → List String →
    Except Unit (List String) × FetchState
  | s, [] => (.ok [], s)
  | s, t :: ts =>
    match fetch_tag r s t with
    | (.error e, s1) => (.error e, s1)
    | (.ok d1, s1) =>
      match batch_fetch_tags r s1 ts with
      | (.error e, s2) => (.error e, s2)
      | (.ok d2, s2) => (.ok (d1 ++ d2), s2)

/-- Modelled from the spec: `DanbooruTagGraph.auto_save` persists the graph
after each completed batch (durability at least once per fetch batch). -/
def auto_save (s : FetchState) : FetchState := { s with saved := s.graph }

/-- The closure-fetch loop of `_ensure_all_tags_fetched` (lines 202-219),
with explicit fuel standing for the unbounded `while`. -/
def ensure_loop (r : Remote) : Nat → List String → FetchState →
    Except Unit Unit × FetchState
  | 0, _, s => (.ok (), s)
  | fuel + 1, toProcess, s =>
    if toProcess.isEmpty then (.ok (), s)
    else if (get_unfetched_tags s.graph toProcess).isEmpty then (.ok (), s)
    else
      match batch_fetch_tags r s (get_unfetched_tags s.graph toProcess) with
      | (.error e, s1) => (.error e, s1)
      | (.ok newly, s1) => ensure_loop r fuel ((toProcess ++ newly).dedup) (auto_save s1)

/-- `_ensure_all_tags_fetched` (lines 196-222): run the closure-fetch loop,
then the directionality validator; a rate-limit signal propagates and skips
the validator. -/
def ensure_all_tags_fetched (r : Remote) (fuel : Nat) (tags : List String)
    (s : FetchState) : Except Unit Unit × FetchState :=
  match ensure_loop r fuel tags.dedup s with
  | (.error e, s1) => (.error e, s1)
  | (.ok _, s1) => (.ok (), { s1 with graph := validate_alias_directionality s1.graph })

/-- `TagExpander.is_tag_cached` (line 574): delegates to `is_tag_fetched`. -/
def is_tag_cached (g : TagGraph) (t : String) : Bool := is_tag_fetched g t

/-! ## FrequencyModel and graph expansion

Modelled from the spec: `DanbooruTagGraph.expand_tags` (spec sections 4.5-4.6)
is part of the external graph package.  Input occurrences start at weight 1,
implication propagation is transitive and weighted (evaluated here as a sum
over implication paths, exact on the expected DAGs), and every member of an
alias group is assigned the combined group total. -/

/-- Direct implication consequents of a tag. -/
def impl_adjacent (g : TagGraph) (z : String) : List String :=
  g.edges.filterMap (fun e =>
    if e.2 = EdgeType.implication ∧ e.1.1 = z then some e.1.2 else none)

/-- Undirected alias neighbourhood of a tag (alias edges in either
direction). -/
def alias_adjacent (g : TagGraph) (z : String) : List String :=
  g.edges.filterMap (fun e =>
    if e.2 = EdgeType.alias ∧ e.1.1 = z then some e.1.2
    else if e.2 = EdgeType.alias ∧ e.1.2 = z then some e.1.1
    else none)

/-- One closure step: the current set together with all its neighbours. -/
def closure_step (adj : String → List String) (cur : List String) : List String :=
  (cur ++ cur.flatMap adj).dedup

/-- Iterated closure steps. -/
def closure_iter (adj : String → List String) : Nat → List String → List String
  | 0, cur => cur
  | n + 1, cur => closure_iter adj n (closure_step adj cur)

/-- A bound on how many closure steps can add something new: the start tag
together with every edge endpoint. -/
def node_univ (g : TagGraph) (t : String) : Finset String :=
  insert t (g.edges.flatMap (fun e => [e.1.1, e.1.2])).toFinset

/-- Modelled from the spec: `get_alias_group` — the connected component of a
tag over alias edges with direction ignored, the tag included. -/
def get_alias_group (g : TagGraph) (t : String) : List String :=
  closure_iter (alias_adjacent g) (node_univ g t).card [t]

/-- Number of implication paths from `x` to `y` of the given exact length. -/
def paths_of_length (g : TagGraph) : Nat → String → String → Nat
  | 0, x, y => if x = y then 1 else 0
  | n + 1, x, y => ((impl_adjacent g x).map (fun z => paths_of_length g n z y)).sum

/-- Total number of implication paths from `x` to `y` (path length in a graph
with no repeated edges is at most the edge count, so this is exact on DAGs). -/
def path_count (g : TagGraph) (x y : String) : Nat :=
  ((List.range (g.edges.length + 1)).map (fun n => paths_of_length g n x y)).sum

/-- Modelled from the spec: the pre-alias-sharing frequency of a tag — each
input occurrence contributes 1 for itself and propagates its weight along
every implication path (transitive weighted propagation). -/
def pre_alias_freq (g : TagGraph) (tags : List String) (t : String) : Nat :=
  (tags.map (fun s => path_count g s t)).sum

/-- Modelled from the spec: `get_transitive_implications` — everything
reachable over implication edges, the tag itself excluded, deprecated tags
filtered out. -/
def trans_implications (g : TagGraph) (t : String) : List String :=
  (closure_iter (impl_adjacent g) (node_univ g t).card [t]).filter
    (fun x => decide (¬ x = t) && ! is_deprecated g x)

/-- Modelled from the spec: the expanded set — the input tags, their
non-deprecated transitive implications, and every alias-group member of all
of those. -/
def expanded_set (g : TagGraph) (tags : List String) : List String :=
  ((tags ++ tags.flatMap (trans_implications g)).dedup.flatMap
    (get_alias_group g)).dedup

/-- Modelled from the spec: `DanbooruTagGraph.expand_tags` — the expanded set
and the frequency map in which every member of an alias group carries the
group's combined pre-alias total. -/
def graph_expand_tags (g : TagGraph) (tags : List String) :
    List String × (String → Nat) :=
  (expanded_set g tags,
   fun t => if t ∈ expanded_set g tags then
       Finset.sum (get_alias_group g t).toFinset (pre_alias_freq g tags)
     else 0)

/-- `TagExpander.expand_tags` (lines 159-194): ensure all reachable tags are
fetched (a rate-limit signal propagates with no result), then expand over the
now-stable graph. -/
def expand_tags (r : Remote) (fuel : Nat) (tags : List String) (s : FetchState) :
    Except Unit (List String × (String → Nat)) × FetchState :=
  match ensure_all_tags_fetched r fuel tags s with
  | (.error e, s1) => (.error e, s1)
  | (.ok _, s1) => (.ok (graph_expand_tags s1.graph tags), s1)

/-! ## The API wrapper's error classification

Translated from `TagExpander._api_request` (tag_expander.py lines 109-157).
The underlying `pybooru` call either succeeds, fails with a `KeyError`
(the library's HTTP-429 quirk), or fails with some other exception; only the
resulting message strings matter here. -/

inductive ApiOutcome where
  | success (resp : List String)
  | keyErrorOutcome (msg : String)
  | otherErrorOutcome (msg : String)
deriving DecidableEq, Repr

/-- Whether `pat` starts `l`. -/
def starts_with_list : List Char → List Char → Bool
  | [], _ => true
  | _ :: _, [] => false
  | a :: as, b :: bs => decide (a = b) && starts_with_list as bs

/-- Whether `pat` occurs contiguously inside `l` (Python's `pat in s`). -/
def has_sub_list (pat : List Char) : List Char → Bool
  | [] => starts_with_list pat []
  | b :: bs => starts_with_list pat (b :: bs) || has_sub_list pat bs

/-- Python's substring test `pat in s`. -/
def str_contains (s pat : String) : Bool := has_sub_list pat.toList s.toList

/-- Python's `s.lower()`. -/
def lower_str (s : String) : String := String.mk (s.toList.map Char.toLower)

/-- The throttling phrases of line 151. -/
def throttle_phrases : List String := ["rate limit", "too many requests", "429", "throttled"]

/-- `_api_request`: a `KeyError` mentioning "429" raises the rate-limit
error; any other exception raises it iff its lowercased message contains a
throttling phrase; every other failure yields the empty result. -/
def api_request (o : ApiOutcome) : Except Unit (List String) :=
  match o with
  | .success resp => .ok resp
  | .keyErrorOutcome msg =>
    if str_contains msg "429" then .error () else .ok []
  | .otherErrorOutcome msg =>
    if throttle_phrases.any (fun p => str_contains (lower_str msg) p) then .error ()
    else .ok []

/-- Whether a result is the rate-limit signal. -/
def is_rate_limit : Except Unit (List String) → Bool
  | .error _ => true
  | .ok _ => false

/-! ## Node-attribute lemmas for the fetch machinery -/

theorem find?_cons_pos {α : Type} (p : α → Bool) (a : α) (l : List α)
    (h : p a = true) : (a :: l).find? p = some a := by
  simp [List.find?, h]

theorem find?_cons_neg {α : Type} (p : α → Bool) (a : α) (l : List α)
    (h : p a = false) : (a :: l).find? p = l.find? p := by
  simp [List.find?, h]

theorem find?_map_invariant {α : Type} (f : α → α) (p : α → Bool) :
    ∀ l : List α, (∀ a, p (f a) = p a) → (∀ a, p a = true → f a = a) →
      (l.map f).find? p = l.find? p
  | [], _, _ => rfl
  | a :: l, hp, hf => by
    by_cases h : p a = true
    · rw [List.map_cons, find?_cons_pos _ _ _ (by rw [hp]; exact h),
        find?_cons_pos _ _ _ h, hf a h]
    · have h' : p a = false := Bool.eq_false_iff.mpr h
      rw [List.map_cons, find?_cons_neg _ _ _ (by rw [hp]; exact h'),
        find?_cons_neg _ _ _ h']
      exact find?_map_invariant f p l hp hf

theorem find?_map_update_found (n : String) (nd : TagNode) :
    ∀ l : List (String × TagNode), l.any (fun p => decide (p.1 = n)) = true →
      (l.map (fun p => if p.1 = n then (n, nd) else p)).find?
        (fun p => decide (p.1 = n)) = some (n, nd)
  | [], h => by simp at h
  | a :: l, h => by
    by_cases ha : a.1 = n
    · rw [List.map_cons, if_pos ha, find?_cons_pos _ _ _ (by simp)]
    · rw [List.map_cons, if_neg ha, find?_cons_neg _ _ _ (by simp [ha])]
      refine find?_map_update_found n nd l ?_
      rw [List.any_cons, Bool.or_eq_true] at h
      rcases h with h1 | h2
      · exact absurd (of_decide_eq_true h1) ha
      · exact h2

theorem find?_append_none {α : Type} (p : α → Bool) :
    ∀ l1 l2 : List α, l1.find? p = none → (l1 ++ l2).find? p = l2.find? p
  | [], _, _ => rfl
  | a :: l1, l2, h => by
    by_cases ha : p a = true
    · rw [find?_cons_pos _ _ _ ha] at h
      exact absurd h (by simp)
    · have ha' : p a = false := Bool.eq_false_iff.mpr ha
      rw [find?_cons_neg _ _ _ ha'] at h
      rw [List.cons_append, find?_cons_neg _ _ _ ha']
      exact find?_append_none p l1 l2 h

theorem find?_append_some {α : Type} (p : α → Bool) (v : α) :
    ∀ l1 l2 : List α, l1.find? p = some v → (l1 ++ l2).find? p = some v
  | [], _, h => by simp [List.find?] at h
  | a :: l1, l2, h => by
    by_cases ha : p a = true
    · rw [find?_cons_pos _ _ _ ha] at h
      rw [List.cons_append, find?_cons_pos _ _ _ ha]
      exact h
    · have ha' : p a = false := Bool.eq_false_iff.mpr ha
      rw [find?_cons_neg _ _ _ ha'] at h
      rw [List.cons_append, find?_cons_neg _ _ _ ha']
      exact find?_append_some p v l1 l2 h

theorem lookup_node_add_tag_self (g : TagGraph) (n : String) (d f : Bool) :
    lookup_node (add_tag g n d f) n = some ⟨d, f⟩ := by
  unfold add_tag lookup_node
  by_cases h : g.nodes.any (fun p => decide (p.1 = n)) = true
  · rw [if_pos h]
    dsimp only
    rw [find?_map_update_found n ⟨d, f⟩ g.nodes h]
    rfl
  · rw [if_neg h]
    dsimp only
    have hnone : g.nodes.find? (fun p => decide (p.1 = n)) = none := by
      rw [List.find?_eq_none]
      intro x hx hpx
      exact h (List.any_eq_true.mpr ⟨x, hx, hpx⟩)
    rw [find?_append_none _ _ _ hnone, find?_cons_pos _ _ _ (by simp)]
    rfl

theorem lookup_node_add_tag_other (g : TagGraph) (n : String) (d f : Bool)
    (x : String) (hx : x ≠ n) :
    lookup_node (add_tag g n d f) x = lookup_node g x := by
  have hnx : ¬ ((n : String) = x) := fun hc => hx hc.symm
  unfold add_tag lookup_node
  by_cases h : g.nodes.any (fun p => decide (p.1 = n)) = true
  · rw [if_pos h]
    dsimp only
    rw [find?_map_invariant _ _ g.nodes ?_ ?_]
    · intro a
      by_cases ha : a.1 = n
      · rw [if_pos ha]
        dsimp only
        rw [ha]
      · rw [if_neg ha]
    · intro a hpa
      rw [decide_eq_true_iff] at hpa
      rw [if_neg (fun hc : a.1 = n => hx (hpa ▸ hc))]
  · rw [if_neg h]
    dsimp only
    cases hv : g.nodes.find? (fun p => decide (p.1 = x)) with
    | none =>
      rw [find?_append_none _ _ _ hv, find?_cons_neg _ _ _ (by simp [hnx]),
        List.find?_nil]
    | some v =>
      rw [find?_append_some _ _ _ _ hv]

theorem is_tag_fetched_add_tag (g : TagGraph) (n : String) (d f : Bool)
    (x : String) :
    is_tag_fetched (add_tag g n d f) x =
      if x = n then f else is_tag_fetched g x := by
  by_cases hx : x = n
  · rw [if_pos hx, hx]
    unfold is_tag_fetched
    rw [lookup_node_add_tag_self]
  · rw [if_neg hx]
    unfold is_tag_fetched
    rw [lookup_node_add_tag_other g n d f x hx]

theorem lookup_node_ensure_node (g : TagGraph) (n x : String) :
    lookup_node (ensure_node g n) x = lookup_node g x ∨
      (lookup_node g x = none ∧ lookup_node (ensure_node g n) x = some ⟨false, false⟩) := by
  unfold ensure_node
  by_cases h : g.nodes.any (fun p => decide (p.1 = n)) = true
  · rw [if_pos h]
    left
    rfl
  · rw [if_neg h]
    unfold lookup_node
    dsimp only
    cases hv : g.nodes.find? (fun p => decide (p.1 = x)) with
    | none =>
      by_cases hnx : (n : String) = x
      · right
        refine ⟨rfl, ?_⟩
        rw [find?_append_none _ _ _ hv, find?_cons_pos _ _ _ (by simp [hnx])]
        rfl
      · left
        rw [find?_append_none _ _ _ hv, find?_cons_neg _ _ _ (by simp [hnx]),
          List.find?_nil]
    | some v =>
      left
      rw [find?_append_some _ _ _ _ hv]

theorem is_tag_fetched_ensure_node (g : TagGraph) (n x : String) :
    is_tag_fetched (ensure_node g n) x = is_tag_fetched g x := by
  rcases lookup_node_ensure_node g n x with h | ⟨h1, h2⟩
  · unfold is_tag_fetched
    rw [h]
  · unfold is_tag_fetched
    rw [h1, h2]

theorem is_tag_fetched_congr_nodes (g g' : TagGraph) (h : g.nodes = g'.nodes)
    (x : String) : is_tag_fetched g x = is_tag_fetched g' x := by
  unfold is_tag_fetched lookup_node
  rw [h]

theorem is_tag_fetched_add_edge_raw (g : TagGraph) (a b : String) (ty : EdgeType)
    (x : String) :
    is_tag_fetched (add_edge_raw g a b ty) x = is_tag_fetched g x := by
  rw [is_tag_fetched_congr_nodes _ (ensure_node (ensure_node g a) b)
    (add_edge_raw_nodes g a b ty) x]
  rw [is_tag_fetched_ensure_node, is_tag_fetched_ensure_node]

theorem is_tag_fetched_remove_edge (g : TagGraph) (a b : String) (x : String) :
    is_tag_fetched (remove_edge g a b) x = is_tag_fetched g x := rfl

theorem is_tag_fetched_fix_pair (g : TagGraph) (p : String × String) (x : String) :
    is_tag_fetched (fix_pair g p) x = is_tag_fetched g x := by
  unfold fix_pair add_alias
  dsimp only
  rw [is_tag_fetched_add_edge_raw, is_tag_fetched_remove_edge,
    is_tag_fetched_remove_edge]

theorem is_tag_fetched_foldl_fix (x : String) :
    ∀ (l : List (String × String)) (g : TagGraph),
      is_tag_fetched (l.foldl fix_pair g) x = is_tag_fetched g x
  | [], _ => rfl
  | p :: l, g => by
    rw [List.foldl_cons, is_tag_fetched_foldl_fix x l (fix_pair g p),
      is_tag_fetched_fix_pair]

theorem is_tag_fetched_validate (g : TagGraph) (x : String) :
    is_tag_fetched (validate_alias_directionality g) x = is_tag_fetched g x := by
  unfold validate_alias_directionality
  exact is_tag_fetched_foldl_fix x _ g

theorem has_alias_add_tag (g : TagGraph) (n : String) (d f : Bool) (a b : String) :
    has_alias (add_tag g n d f) a b = has_alias g a b := by
  unfold has_alias
  rw [add_tag_edges]

/-- Every graph operation the fetch procedure performs marks tags fetched,
never unfetched. -/
def good_op : GraphOp → Prop
  | .addTagOp _ _ f => f = true
  | .addImplicationOp _ _ => True
  | .addAliasOp _ _ => True

theorem fetched_mono_apply_op (g : TagGraph) (op : GraphOp) (x : String)
    (hop : good_op op) (h : is_tag_fetched g x = true) :
    is_tag_fetched (apply_op g op) x = true := by
  cases op with
  | addTagOp n d f =>
    have hf : f = true := hop
    subst hf
    unfold apply_op
    rw [is_tag_fetched_add_tag]
    by_cases hx : x = n
    · rw [if_pos hx]
    · rw [if_neg hx]
      exact h
  | addImplicationOp a b =>
    unfold apply_op add_implication
    rw [is_tag_fetched_add_edge_raw]
    exact h
  | addAliasOp a b =>
    unfold apply_op add_alias
    rw [is_tag_fetched_add_edge_raw]
    exact h

theorem record_op_calls (s : FetchState) (op : GraphOp) :
    (record_op s op).calls = s.calls := rfl

theorem record_op_saved (s : FetchState) (op : GraphOp) :
    (record_op s op).saved = s.saved := rfl

theorem record_call_graph (s : FetchState) (c : RemoteCall) :
    (record_call s c).graph = s.graph := rfl

/-! ## State-shape lemmas for the fetch functions -/

theorem filter_non_deprecated_state (r : Remote) :
    ∀ (l : List String) (s : FetchState),
      ∃ cl, (filter_non_deprecated r s l).2 = { s with calls := s.calls ++ cl } ∧
        ∀ c ∈ cl, ∃ y, c = RemoteCall.deprCall y
  | [], s => ⟨[], by rw [List.append_nil]; rfl, by simp⟩
  | c :: cs, s => by
    cases hdep : r.deprecated c with
    | error e =>
      refine ⟨[RemoteCall.deprCall c], ?_, ?_⟩
      · simp only [filter_non_deprecated, remote_deprecated, hdep]
        rfl
      · intro x hx
        rw [List.mem_singleton] at hx
        exact ⟨c, hx⟩
    | ok d =>
      obtain ⟨cl', hcl', hall⟩ :=
        filter_non_deprecated_state r cs (record_call s (RemoteCall.deprCall c))
      refine ⟨RemoteCall.deprCall c :: cl', ?_, ?_⟩
      · rcases hres : filter_non_deprecated r (record_call s (RemoteCall.deprCall c)) cs
          with ⟨res, s2⟩
        rw [hres] at hcl'
        simp only [filter_non_deprecated, remote_deprecated, hdep, hres]
        cases res with
        | error e =>
          dsimp only at hcl' ⊢
          rw [hcl']
          simp [record_call, List.append_assoc]
        | ok rest =>
          dsimp only at hcl' ⊢
          rw [hcl']
          simp [record_call, List.append_assoc]
      · intro x hx
        rcases List.mem_cons.mp hx with h1 | h2
        · exact ⟨c, h1⟩
        · exact hall x h2

theorem fetch_tag_implications_state (r : Remote) (s : FetchState) (t : String) :
    ∃ cl, (fetch_tag_implications r s t).2 = { s with calls := s.calls ++ cl } ∧
      ∀ c ∈ cl, c = RemoteCall.implCall t ∨ ∃ y, c = RemoteCall.deprCall y := by
  cases himp : r.implications t with
  | error e =>
    refine ⟨[RemoteCall.implCall t], ?_, ?_⟩
    · simp only [fetch_tag_implications, himp]
      rfl
    · intro x hx
      rw [List.mem_singleton] at hx
      exact Or.inl hx
  | ok cands =>
    obtain ⟨cl', hcl', hall⟩ :=
      filter_non_deprecated_state r cands (record_call s (RemoteCall.implCall t))
    refine ⟨RemoteCall.implCall t :: cl', ?_, ?_⟩
    · simp only [fetch_tag_implications, himp]
      rw [hcl']
      simp [record_call, List.append_assoc]
    · intro x hx
      rcases List.mem_cons.mp hx with h1 | h2
      · exact Or.inl h1
      · exact Or.inr (hall x h2)

theorem fetch_tag_aliases_state (r : Remote) (s : FetchState) (t : String) :
    ∃ cl, (fetch_tag_aliases r s t).2 = { s with calls := s.calls ++ cl } ∧
      ∀ c ∈ cl, c = RemoteCall.aliasCall t ∨ ∃ y, c = RemoteCall.deprCall y := by
  cases hals : r.aliases t with
  | error e =>
    refine ⟨[RemoteCall.aliasCall t], ?_, ?_⟩
    · simp only [fetch_tag_aliases, hals]
      rfl
    · intro x hx
      rw [List.mem_singleton] at hx
      exact Or.inl hx
  | ok cands =>
    obtain ⟨cl', hcl', hall⟩ :=
      filter_non_deprecated_state r cands (record_call s (RemoteCall.aliasCall t))
    refine ⟨RemoteCall.aliasCall t :: cl', ?_, ?_⟩
    · simp only [fetch_tag_aliases, hals]
      rw [hcl']
      simp [record_call, List.append_assoc]
    · intro x hx
      rcases List.mem_cons.mp hx with h1 | h2
      · exact Or.inl h1
      · exact Or.inr (hall x h2)

theorem record_implications_state (t : String) :
    ∀ (l : List String) (s : FetchState),
      (record_implications t s l).calls = s.calls ∧
      (record_implications t s l).saved = s.saved ∧
      ∀ x, is_tag_fetched (record_implications t s l).graph x = is_tag_fetched s.graph x
  | [], _ => ⟨rfl, rfl, fun _ => rfl⟩
  | c :: cs, s => by
    have ih := record_implications_state t cs (record_op s (GraphOp.addImplicationOp t c))
    refine ⟨ih.1, ih.2.1, fun x => ?_⟩
    show is_tag_fetched
      (record_implications t (record_op s (GraphOp.addImplicationOp t c)) cs).graph x = _
    rw [ih.2.2 x]
    show is_tag_fetched (add_implication s.graph t c) x = _
    unfold add_implication
    rw [is_tag_fetched_add_edge_raw]

theorem record_implications_ops (t : String) :
    ∀ (l : List String) (s : FetchState),
      ∃ ops, (record_implications t s l).ops = s.ops ++ ops ∧
        ∀ op ∈ ops, ∃ c ∈ l, op = GraphOp.addImplicationOp t c
  | [], _ => ⟨[], by rw [List.append_nil]; rfl, by simp⟩
  | c :: cs, s => by
    obtain ⟨ops', hops', hall⟩ :=
      record_implications_ops t cs (record_op s (GraphOp.addImplicationOp t c))
    refine ⟨GraphOp.addImplicationOp t c :: ops', ?_, ?_⟩
    · show (record_implications t (record_op s _) cs).ops = _
      rw [hops']
      show (s.ops ++ [GraphOp.addImplicationOp t c]) ++ ops' = _
      rw [List.append_assoc, List.singleton_append]
    · intro op hop
      rcases List.mem_cons.mp hop with h1 | h2
      · exact ⟨c, List.mem_cons_self c cs, h1⟩
      · obtain ⟨c', hc', he⟩ := hall op h2
        exact ⟨c', List.mem_cons_of_mem c hc', he⟩

theorem mark_alias_step_calls (t c : String) (s : FetchState) :
    (mark_alias_step t c s).calls = s.calls := by
  unfold mark_alias_step
  dsimp only
  split <;> rfl

theorem mark_alias_step_saved (t c : String) (s : FetchState) :
    (mark_alias_step t c s).saved = s.saved := by
  unfold mark_alias_step
  dsimp only
  split <;> rfl

theorem mark_alias_step_fetched_mono (t c : String) (s : FetchState) (x : String)
    (h : is_tag_fetched s.graph x = true) :
    is_tag_fetched (mark_alias_step t c s).graph x = true := by
  unfold mark_alias_step
  dsimp only
  have h1 : is_tag_fetched (record_op s (GraphOp.addAliasOp t c)).graph x = true := by
    show is_tag_fetched (add_alias s.graph t c) x = true
    unfold add_alias
    rw [is_tag_fetched_add_edge_raw]
    exact h
  split
  · exact h1
  · show is_tag_fetched (add_tag _ c false true) x = true
    rw [is_tag_fetched_add_tag]
    by_cases hx : x = c
    · rw [if_pos hx]
    · rw [if_neg hx]
      exact h1

theorem mark_alias_step_alias_mono (t c : String) (s : FetchState) (a b : String)
    (h : has_alias s.graph a b = true) :
    has_alias (mark_alias_step t c s).graph a b = true := by
  unfold mark_alias_step
  dsimp only
  have h1 : has_alias (record_op s (GraphOp.addAliasOp t c)).graph a b = true := by
    show has_alias (add_alias s.graph t c) a b = true
    exact (has_alias_add_alias _ _ _ _ _).mpr (Or.inr h)
  split
  · exact h1
  · show has_alias (add_tag _ c false true) a b = true
    rw [has_alias_add_tag]
    exact h1

theorem mark_alias_step_has_alias (t c : String) (s : FetchState) :
    has_alias (mark_alias_step t c s).graph t c = true := by
  unfold mark_alias_step
  dsimp only
  have h1 : has_alias (record_op s (GraphOp.addAliasOp t c)).graph t c = true := by
    show has_alias (add_alias s.graph t c) t c = true
    exact (has_alias_add_alias _ _ _ _ _).mpr (Or.inl rfl)
  split
  · exact h1
  · show has_alias (add_tag _ c false true) t c = true
    rw [has_alias_add_tag]
    exact h1

theorem mark_alias_step_fetched_c (t c : String) (s : FetchState) :
    is_tag_fetched (mark_alias_step t c s).graph c = true := by
  unfold mark_alias_step
  dsimp only
  split
  · next h => exact h
  · show is_tag_fetched (add_tag _ c false true) c = true
    rw [is_tag_fetched_add_tag, if_pos rfl]

theorem mark_alias_step_ops (t c : String) (s : FetchState) :
    ∃ ops, (mark_alias_step t c s).ops = s.ops ++ ops ∧
      ∀ op ∈ ops, op = GraphOp.addAliasOp t c ∨ op = GraphOp.addTagOp c false true := by
  unfold mark_alias_step
  dsimp only
  split
  · refine ⟨[GraphOp.addAliasOp t c], rfl, ?_⟩
    intro op hop
    rw [List.mem_singleton] at hop
    exact Or.inl hop
  · refine ⟨[GraphOp.addAliasOp t c, GraphOp.addTagOp c false true], ?_, ?_⟩
    · show (s.ops ++ [GraphOp.addAliasOp t c]) ++ [GraphOp.addTagOp c false true] = _
      rw [List.append_assoc]
      rfl
    · intro op hop
      rcases List.mem_cons.mp hop with h1 | h2
      · exact Or.inl h1
      · rw [List.mem_singleton] at h2
        exact Or.inr h2

theorem mark_aliases_state (t : String) :
    ∀ (l : List String) (s : FetchState),
      (mark_aliases t s l).calls = s.calls ∧
      (mark_aliases t s l).saved = s.saved ∧
      (∀ x, is_tag_fetched s.graph x = true →
        is_tag_fetched (mark_aliases t s l).graph x = true) ∧
      (∀ a b, has_alias s.graph a b = true →
        has_alias (mark_aliases t s l).graph a b = true)
  | [], _ => ⟨rfl, rfl, fun _ h => h, fun _ _ h => h⟩
  | c :: cs, s => by
    have ih := mark_aliases_state t cs (mark_alias_step t c s)
    refine ⟨?_, ?_, ?_, ?_⟩
    · show (mark_aliases t (mark_alias_step t c s) cs).calls = s.calls
      rw [ih.1, mark_alias_step_calls]
    · show (mark_aliases t (mark_alias_step t c s) cs).saved = s.saved
      rw [ih.2.1, mark_alias_step_saved]
    · intro x hx
      exact ih.2.2.1 x (mark_alias_step_fetched_mono t c s x hx)
    · intro a b hab
      exact ih.2.2.2 a b (mark_alias_step_alias_mono t c s a b hab)

theorem mark_aliases_ops (t : String) :
    ∀ (l : List String) (s : FetchState),
      ∃ ops, (mark_aliases t s l).ops = s.ops ++ ops ∧
        ∀ op ∈ ops, (∃ c ∈ l, op = GraphOp.addAliasOp t c) ∨
          ∃ c ∈ l, op = GraphOp.addTagOp c false true
  | [], _ => ⟨[], by rw [List.append_nil]; rfl, by simp⟩
  | c :: cs, s => by
    obtain ⟨ops1, hops1, hall1⟩ := mark_alias_step_ops t c s
    obtain ⟨ops2, hops2, hall2⟩ := mark_aliases_ops t cs (mark_alias_step t c s)
    refine ⟨ops1 ++ ops2, ?_, ?_⟩
    · show (mark_aliases t (mark_alias_step t c s) cs).ops = _
      rw [hops2, hops1, List.append_assoc]
    · intro op hop
      rcases List.mem_append.mp hop with h1 | h2
      · rcases hall1 op h1 with he | he
        · exact Or.inl ⟨c, List.mem_cons_self c cs, he⟩
        · exact Or.inr ⟨c, List.mem_cons_self c cs, he⟩
      · rcases hall2 op h2 with ⟨c', hc', he⟩ | ⟨c', hc', he⟩
        · exact Or.inl ⟨c', List.mem_cons_of_mem c hc', he⟩
        · exact Or.inr ⟨c', List.mem_cons_of_mem c hc', he⟩

theorem mark_aliases_mem (t : String) :
    ∀ (l : List String) (s : FetchState) (c : String), c ∈ l →
      has_alias (mark_aliases t s l).graph t c = true ∧
      is_tag_fetched (mark_aliases t s l).graph c = true
  | [], _, c, hc => absurd hc (List.not_mem_nil c)
  | c0 :: cs, s, c, hc => by
    rcases List.mem_cons.mp hc with h1 | h2
    · subst h1
      have st := mark_aliases_state t cs (mark_alias_step t c s)
      exact ⟨st.2.2.2 t c (mark_alias_step_has_alias t c s),
        st.2.2.1 c (mark_alias_step_fetched_c t c s)⟩
    · exact mark_aliases_mem t cs (mark_alias_step t c0 s) c h2

theorem fetch_tag_state (r : Remote) (s : FetchState) (t : String) :
    (∀ x, is_tag_fetched s.graph x = true →
      is_tag_fetched (fetch_tag r s t).2.graph x = true) ∧
    (fetch_tag r s t).2.saved = s.saved ∧
    (∀ c, c ∈ s.calls → c ∈ (fetch_tag r s t).2.calls) ∧
    (∀ x, RemoteCall.implCall x ∈ (fetch_tag r s t).2.calls →
      RemoteCall.implCall x ∈ s.calls ∨ x = t) ∧
    (∀ x, RemoteCall.aliasCall x ∈ (fetch_tag r s t).2.calls →
      RemoteCall.aliasCall x ∈ s.calls ∨ x = t) := by
  cases hdep : r.deprecated t with
  | error e =>
    simp only [fetch_tag, remote_deprecated, hdep]
    refine ⟨fun x hx => hx, rfl, ?_, ?_, ?_⟩
    · intro c hc
      exact List.mem_append_left _ hc
    · intro x hx
      rcases List.mem_append.mp hx with h1 | h2
      · exact Or.inl h1
      · rw [List.mem_singleton] at h2
        exact absurd h2 (by simp)
    · intro x hx
      rcases List.mem_append.mp hx with h1 | h2
      · exact Or.inl h1
      · rw [List.mem_singleton] at h2
        exact absurd h2 (by simp)
  | ok d =>
    cases d with
    | true =>
      simp only [fetch_tag, remote_deprecated, hdep]
      refine ⟨?_, rfl, ?_, ?_, ?_⟩
      · intro x hx
        show is_tag_fetched (add_tag s.graph t true true) x = true
        rw [is_tag_fetched_add_tag]
        by_cases hc : x = t
        · rw [if_pos hc]
        · rw [if_neg hc]
          exact hx
      · intro c hc
        exact List.mem_append_left _ hc
      · intro x hx
        rcases List.mem_append.mp hx with h1 | h2
        · exact Or.inl h1
        · rw [List.mem_singleton] at h2
          exact absurd h2 (by simp)
      · intro x hx
        rcases List.mem_append.mp hx with h1 | h2
        · exact Or.inl h1
        · rw [List.mem_singleton] at h2
          exact absurd h2 (by simp)
    | false =>
      obtain ⟨cl1, hs2, hcl1⟩ :=
        fetch_tag_implications_state r (record_call s (RemoteCall.deprCall t)) t
      rcases hi : fetch_tag_implications r (record_call s (RemoteCall.deprCall t)) t
        with ⟨ri, s2⟩
      rw [hi] at hs2
      dsimp only at hs2
      have hs2graph : s2.graph = s.graph := by rw [hs2]; rfl
      have hs2saved : s2.saved = s.saved := by rw [hs2]; rfl
      have hs2calls : s2.calls = (s.calls ++ [RemoteCall.deprCall t]) ++ cl1 := by
        rw [hs2]
        rfl
      have hs2implCall : ∀ x, RemoteCall.implCall x ∈ s2.calls →
          RemoteCall.implCall x ∈ s.calls ∨ x = t := by
        intro x hx
        rw [hs2calls] at hx
        rcases List.mem_append.mp hx with h1 | h2
        · rcases List.mem_append.mp h1 with h3 | h4
          · exact Or.inl h3
          · rw [List.mem_singleton] at h4
            exact absurd h4 (by simp)
        · rcases hcl1 _ h2 with h5 | ⟨y, h5⟩
          · right
            injection h5
          · exact absurd h5 (by simp)
      have hs2aliasCall : ∀ x, RemoteCall.aliasCall x ∈ s2.calls →
          RemoteCall.aliasCall x ∈ s.calls := by
        intro x hx
        rw [hs2calls] at hx
        rcases List.mem_append.mp hx with h1 | h2
        · rcases List.mem_append.mp h1 with h3 | h4
          · exact h3
          · rw [List.mem_singleton] at h4
            exact absurd h4 (by simp)
        · rcases hcl1 _ h2 with h5 | ⟨y, h5⟩
          · exact absurd h5 (by simp)
          · exact absurd h5 (by simp)
      have hs2mono : ∀ c, c ∈ s.calls → c ∈ s2.calls := by
        intro c hc
        rw [hs2calls]
        exact List.mem_append_left _ (List.mem_append_left _ hc)
      cases ri with
      | error e =>
        simp only [fetch_tag, remote_deprecated, hdep, hi]
        refine ⟨?_, hs2saved, hs2mono, hs2implCall, fun x hx => Or.inl (hs2aliasCall x hx)⟩
        intro x hx
        rw [hs2graph]
        exact hx
      | ok impls =>
        obtain ⟨cl2, hs3, hcl2⟩ := fetch_tag_aliases_state r s2 t
        rcases ha : fetch_tag_aliases r s2 t with ⟨ra, s3⟩
        rw [ha] at hs3
        dsimp only at hs3
        have hs3graph : s3.graph = s.graph := by rw [hs3]; exact hs2graph
        have hs3saved : s3.saved = s.saved := by rw [hs3]; exact hs2saved
        have hs3calls : s3.calls = s2.calls ++ cl2 := by rw [hs3]
        have hs3implCall : ∀ x, RemoteCall.implCall x ∈ s3.calls →
            RemoteCall.implCall x ∈ s.calls ∨ x = t := by
          intro x hx
          rw [hs3calls] at hx
          rcases List.mem_append.mp hx with h1 | h2
          · exact hs2implCall x h1
          · rcases hcl2 _ h2 with h5 | ⟨y, h5⟩
            · exact absurd h5 (by simp)
            · exact absurd h5 (by simp)
        have hs3aliasCall : ∀ x, RemoteCall.aliasCall x ∈ s3.calls →
            RemoteCall.aliasCall x ∈ s.calls ∨ x = t := by
          intro x hx
          rw [hs3calls] at hx
          rcases List.mem_append.mp hx with h1 | h2
          · exact Or.inl (hs2aliasCall x h1)
          · rcases hcl2 _ h2 with h5 | ⟨y, h5⟩
            · right
              injection h5
            · exact absurd h5 (by simp)
        have hs3mono : ∀ c, c ∈ s.calls → c ∈ s3.calls := by
          intro c hc
          rw [hs3calls]
          exact List.mem_append_left _ (hs2mono c hc)
        cases ra with
        | error e =>
          simp only [fetch_tag, remote_deprecated, hdep, hi, ha]
          refine ⟨?_, hs3saved, hs3mono, hs3implCall, hs3aliasCall⟩
          intro x hx
          rw [hs3graph]
          exact hx
        | ok als =>
          simp only [fetch_tag, remote_deprecated, hdep, hi, ha]
          set s4 := record_op s3 (GraphOp.addTagOp t false true) with hs4
          set s5 := record_implications t s4 impls with hs5
          have h5state := record_implications_state t impls s4
          have h6state := mark_aliases_state t als s5
          refine ⟨?_, ?_, ?_, ?_, ?_⟩
          · intro x hx
            apply h6state.2.2.1
            rw [h5state.2.2]
            show is_tag_fetched (add_tag s3.graph t false true) x = true
            rw [is_tag_fetched_add_tag]
            by_cases hc : x = t
            · rw [if_pos hc]
            · rw [if_neg hc]
              rw [hs3graph]
              exact hx
          · rw [h6state.2.1, h5state.2.1]
            show s3.saved = s.saved
            exact hs3saved
          · intro c hc
            rw [h6state.1, h5state.1]
            show c ∈ s3.calls
            exact hs3mono c hc
          · intro x hx
            rw [h6state.1, h5state.1] at hx
            exact hs3implCall x hx
          · intro x hx
            rw [h6state.1, h5state.1] at hx
            exact hs3aliasCall x hx

theorem fetch_tag_ok_fetched (r : Remote) (s : FetchState) (t : String)
    (d : List String) (s' : FetchState) (h : fetch_tag r s t = (.ok d, s')) :
    is_tag_fetched s'.graph t = true := by
  cases hdep : r.deprecated t with
  | error e => simp [fetch_tag, remote_deprecated, hdep] at h
  | ok b =>
    cases b with
    | true =>
      simp only [fetch_tag, remote_deprecated, hdep] at h
      obtain ⟨h1, h2⟩ := Prod.ext_iff.mp h
      dsimp only at h2
      subst h2
      show is_tag_fetched (add_tag s.graph t true true) t = true
      rw [is_tag_fetched_add_tag, if_pos rfl]
    | false =>
      rcases hi : fetch_tag_implications r (record_call s (RemoteCall.deprCall t)) t
        with ⟨ri, s2⟩
      cases ri with
      | error e => simp [fetch_tag, remote_deprecated, hdep, hi] at h
      | ok impls =>
        rcases ha : fetch_tag_aliases r s2 t with ⟨ra, s3⟩
        cases ra with
        | error e => simp [fetch_tag, remote_deprecated, hdep, hi, ha] at h
        | ok als =>
          simp only [fetch_tag, remote_deprecated, hdep, hi, ha] at h
          obtain ⟨h1, h2⟩ := Prod.ext_iff.mp h
          dsimp only at h2
          subst h2
          apply (mark_aliases_state t als _).2.2.1
          rw [(record_implications_state t impls _).2.2]
          show is_tag_fetched (add_tag s3.graph t false true) t = true
          rw [is_tag_fetched_add_tag, if_pos rfl]

theorem fetch_tag_ok_shape (r : Remote) (s : FetchState) (t : String)
    (d : List String) (s' : FetchState) (hdep : r.deprecated t = .ok false)
    (h : fetch_tag r s t = (.ok d, s')) :
    ∃ impls als s2 s3,
      fetch_tag_implications r (record_call s (RemoteCall.deprCall t)) t =
        (.ok impls, s2) ∧
      fetch_tag_aliases r s2 t = (.ok als, s3) ∧
      d = impls ++ als ∧
      s' = mark_aliases t
        (record_implications t (record_op s3 (GraphOp.addTagOp t false true)) impls)
        als := by
  rcases hi : fetch_tag_implications r (record_call s (RemoteCall.deprCall t)) t
    with ⟨ri, s2⟩
  cases ri with
  | error e => simp [fetch_tag, remote_deprecated, hdep, hi] at h
  | ok impls =>
    rcases ha : fetch_tag_aliases r s2 t with ⟨ra, s3⟩
    cases ra with
    | error e => simp [fetch_tag, remote_deprecated, hdep, hi, ha] at h
    | ok als =>
      simp only [fetch_tag, remote_deprecated, hdep, hi, ha] at h
      obtain ⟨h1, h2⟩ := Prod.ext_iff.mp h
      dsimp only at h1 h2
      refine ⟨impls, als, s2, s3, rfl, ha, ?_, h2.symm⟩
      injection h1 with h1
      exact h1.symm

theorem batch_fetch_tags_state (r : Remote) :
    ∀ (ts : List String) (s : FetchState),
      (∀ x, is_tag_fetched s.graph x = true →
        is_tag_fetched (batch_fetch_tags r s ts).2.graph x = true) ∧
      (batch_fetch_tags r s ts).2.saved = s.saved ∧
      (∀ c, c ∈ s.calls → c ∈ (batch_fetch_tags r s ts).2.calls) ∧
      (∀ x, RemoteCall.implCall x ∈ (batch_fetch_tags r s ts).2.calls →
        RemoteCall.implCall x ∈ s.calls ∨ x ∈ ts) ∧
      (∀ x, RemoteCall.aliasCall x ∈ (batch_fetch_tags r s ts).2.calls →
        RemoteCall.aliasCall x ∈ s.calls ∨ x ∈ ts)
  | [], s =>
    ⟨fun _ h => h, rfl, fun _ h => h, fun _ h => Or.inl h, fun _ h => Or.inl h⟩
  | t :: ts, s => by
    rcases hf : fetch_tag r s t with ⟨rf, s1⟩
    have hfs := fetch_tag_state r s t
    rw [hf] at hfs
    dsimp only at hfs
    cases rf with
    | error e =>
      simp only [batch_fetch_tags, hf]
      refine ⟨hfs.1, hfs.2.1, hfs.2.2.1, ?_, ?_⟩
      · intro x hx
        rcases hfs.2.2.2.1 x hx with h1 | h2
        · exact Or.inl h1
        · right
          rw [h2]
          exact List.mem_cons_self t ts
      · intro x hx
        rcases hfs.2.2.2.2 x hx with h1 | h2
        · exact Or.inl h1
        · right
          rw [h2]
          exact List.mem_cons_self t ts
    | ok d1 =>
      rcases hb : batch_fetch_tags r s1 ts with ⟨rb, s2⟩
      have ih := batch_fetch_tags_state r ts s1
      rw [hb] at ih
      dsimp only at ih
      have core :
          (∀ x, is_tag_fetched s.graph x = true → is_tag_fetched s2.graph x = true) ∧
          s2.saved = s.saved ∧
          (∀ c, c ∈ s.calls → c ∈ s2.calls) ∧
          (∀ x, RemoteCall.implCall x ∈ s2.calls →
            RemoteCall.implCall x ∈ s.calls ∨ x ∈ t :: ts) ∧
          (∀ x, RemoteCall.aliasCall x ∈ s2.calls →
            RemoteCall.aliasCall x ∈ s.calls ∨ x ∈ t :: ts) := by
        refine ⟨fun x hx => ih.1 x (hfs.1 x hx), ih.2.1.trans hfs.2.1,
          fun c hc => ih.2.2.1 c (hfs.2.2.1 c hc), ?_, ?_⟩
        · intro x hx
          rcases ih.2.2.2.1 x hx with h1 | h2
          · rcases hfs.2.2.2.1 x h1 with h3 | h4
            · exact Or.inl h3
            · right
              rw [h4]
              exact List.mem_cons_self t ts
          · exact Or.inr (List.mem_cons_of_mem t h2)
        · intro x hx
          rcases ih.2.2.2.2 x hx with h1 | h2
          · rcases hfs.2.2.2.2 x h1 with h3 | h4
            · exact Or.inl h3
            · right
              rw [h4]
              exact List.mem_cons_self t ts
          · exact Or.inr (List.mem_cons_of_mem t h2)
      cases rb with
      | error e =>
        simp only [batch_fetch_tags, hf, hb]
        exact core
      | ok d2 =>
        simp only [batch_fetch_tags, hf, hb]
        exact core

theorem batch_fetch_tags_ok_fetched (r : Remote) :
    ∀ (ts : List String) (s : FetchState) (d : List String) (s' : FetchState),
      batch_fetch_tags r s ts = (.ok d, s') →
      ∀ t ∈ ts, is_tag_fetched s'.graph t = true
  | [], _, _, _, _, t, ht => absurd ht (List.not_mem_nil t)
  | t0 :: ts, s, d, s', h, t, ht => by
    rcases hf : fetch_tag r s t0 with ⟨rf, s1⟩
    cases rf with
    | error e => simp [batch_fetch_tags, hf] at h
    | ok d1 =>
      rcases hb : batch_fetch_tags r s1 ts with ⟨rb, s2⟩
      cases rb with
      | error e => simp [batch_fetch_tags, hf, hb] at h
      | ok d2 =>
        simp only [batch_fetch_tags, hf, hb] at h
        obtain ⟨h1, h2⟩ := Prod.ext_iff.mp h
        dsimp only at h2
        subst h2
        have ih := batch_fetch_tags_state r ts s1
        rw [hb] at ih
        dsimp only at ih
        rcases List.mem_cons.mp ht with he | hm
        · subst he
          exact ih.1 t (fetch_tag_ok_fetched r s t d1 s1 hf)
        · exact batch_fetch_tags_ok_fetched r ts s1 d2 s2 hb t hm

theorem batch_fetch_tags_error_prefix (r : Remote) :
    ∀ (ts : List String) (s : FetchState) (e : Unit) (s' : FetchState),
      batch_fetch_tags r s ts = (.error e, s') →
      ∃ pre bad rest, ts = pre ++ bad :: rest ∧
        ∀ t ∈ pre, is_tag_fetched s'.graph t = true
  | [], _, _, _, h => by simp [batch_fetch_tags] at h
  | t0 :: ts, s, e, s', h => by
    rcases hf : fetch_tag r s t0 with ⟨rf, s1⟩
    cases rf with
    | error e1 =>
      refine ⟨[], t0, ts, rfl, by simp⟩
    | ok d1 =>
      rcases hb : batch_fetch_tags r s1 ts with ⟨rb, s2⟩
      cases rb with
      | ok d2 => simp [batch_fetch_tags, hf, hb] at h
      | error e2 =>
        simp only [batch_fetch_tags, hf, hb] at h
        obtain ⟨h1, h2⟩ := Prod.ext_iff.mp h
        dsimp only at h2
        subst h2
        obtain ⟨pre, bad, rest, hts, hpre⟩ :=
          batch_fetch_tags_error_prefix r ts s1 e2 s2 hb
        have ih := batch_fetch_tags_state r ts s1
        rw [hb] at ih
        dsimp only at ih
        refine ⟨t0 :: pre, bad, rest, by rw [hts]; rfl, ?_⟩
        intro t ht
        rcases List.mem_cons.mp ht with he | hm
        · subst he
          exact ih.1 t (fetch_tag_ok_fetched r s t d1 s1 hf)
        · exact hpre t hm

theorem not_mem_get_unfetched (g : TagGraph) (cands : List String) (t : String)
    (h : is_tag_fetched g t = true) : t ∉ get_unfetched_tags g cands := by
  intro hc
  unfold get_unfetched_tags at hc
  rw [List.mem_filter, h] at hc
  exact absurd hc.2 (by decide)

theorem ensure_loop_state (r : Remote) :
    ∀ (fuel : Nat) (tp : List String) (s : FetchState),
      (∀ x, is_tag_fetched s.graph x = true →
        is_tag_fetched (ensure_loop r fuel tp s).2.graph x = true) ∧
      (∀ x, is_tag_fetched s.graph x = true →
        (RemoteCall.implCall x ∈ (ensure_loop r fuel tp s).2.calls →
          RemoteCall.implCall x ∈ s.calls) ∧
        (RemoteCall.aliasCall x ∈ (ensure_loop r fuel tp s).2.calls →
          RemoteCall.aliasCall x ∈ s.calls)) ∧
      (s.saved = s.graph →
        ∀ x, is_tag_fetched s.graph x = true →
          is_tag_fetched (ensure_loop r fuel tp s).2.saved x = true)
  | 0, tp, s =>
    ⟨fun _ h => h, fun _ _ => ⟨fun h => h, fun h => h⟩, fun hsync x hx => by
      show is_tag_fetched s.saved x = true
      rw [hsync]
      exact hx⟩
  | fuel + 1, tp, s => by
    by_cases htp : tp.isEmpty = true
    · simp only [ensure_loop, if_pos htp]
      exact ⟨fun _ h => h, fun _ _ => ⟨fun h => h, fun h => h⟩, fun hsync x hx => by
        show is_tag_fetched s.saved x = true
        rw [hsync]
        exact hx⟩
    · by_cases hu : (get_unfetched_tags s.graph tp).isEmpty = true
      · simp only [ensure_loop, if_neg htp, if_pos hu]
        exact ⟨fun _ h => h, fun _ _ => ⟨fun h => h, fun h => h⟩, fun hsync x hx => by
          show is_tag_fetched s.saved x = true
          rw [hsync]
          exact hx⟩
      · rcases hbt : batch_fetch_tags r s (get_unfetched_tags s.graph tp) with ⟨rb, s1⟩
        have hbs := batch_fetch_tags_state r (get_unfetched_tags s.graph tp) s
        rw [hbt] at hbs
        dsimp only at hbs
        cases rb with
        | error e =>
          simp only [ensure_loop, if_neg htp, if_neg hu, hbt]
          refine ⟨hbs.1, ?_, ?_⟩
          · intro x hx
            refine ⟨fun hc => ?_, fun hc => ?_⟩
            · rcases hbs.2.2.2.1 x hc with h1 | h2
              · exact h1
              · exact absurd h2 (not_mem_get_unfetched _ _ _ hx)
            · rcases hbs.2.2.2.2 x hc with h1 | h2
              · exact h1
              · exact absurd h2 (not_mem_get_unfetched _ _ _ hx)
          · intro hsync x hx
            show is_tag_fetched s1.saved x = true
            rw [hbs.2.1, hsync]
            exact hx
        | ok newly =>
          have ih := ensure_loop_state r fuel ((tp ++ newly).dedup) (auto_save s1)
          simp only [ensure_loop, if_neg htp, if_neg hu, hbt]
          refine ⟨?_, ?_, ?_⟩
          · intro x hx
            exact ih.1 x (hbs.1 x hx)
          · intro x hx
            have hx1 : is_tag_fetched (auto_save s1).graph x = true := hbs.1 x hx
            refine ⟨fun hc => ?_, fun hc => ?_⟩
            · have h1 := (ih.2.1 x hx1).1 hc
              rcases hbs.2.2.2.1 x h1 with h2 | h3
              · exact h2
              · exact absurd h3 (not_mem_get_unfetched _ _ _ hx)
            · have h1 := (ih.2.1 x hx1).2 hc
              rcases hbs.2.2.2.2 x h1 with h2 | h3
              · exact h2
              · exact absurd h3 (not_mem_get_unfetched _ _ _ hx)
          · intro _ x hx
            exact ih.2.2 rfl x (hbs.1 x hx)

theorem ensure_all_error (r : Remote) (fuel : Nat) (tags : List String)
    (s s' : FetchState) (e : Unit)
    (h : ensure_all_tags_fetched r fuel tags s = (.error e, s')) :
    ensure_loop r fuel tags.dedup s = (.error e, s') := by
  rcases hl : ensure_loop r fuel tags.dedup s with ⟨rl, s1⟩
  cases rl with
  | error e1 =>
    simp only [ensure_all_tags_fetched, hl] at h
    obtain ⟨h1, h2⟩ := Prod.ext_iff.mp h
    dsimp only at h1 h2
    rw [h1, h2]
  | ok u =>
    simp [ensure_all_tags_fetched, hl] at h

theorem ensure_all_ok_graph (r : Remote) (fuel : Nat) (tags : List String)
    (s s' : FetchState) (h : ensure_all_tags_fetched r fuel tags s = (.ok (), s')) :
    ∃ s1, ensure_loop r fuel tags.dedup s = (.ok (), s1) ∧
      s' = { s1 with graph := validate_alias_directionality s1.graph } := by
  rcases hl : ensure_loop r fuel tags.dedup s with ⟨rl, s1⟩
  cases rl with
  | error e1 => simp [ensure_all_tags_fetched, hl] at h
  | ok u =>
    cases u
    simp only [ensure_all_tags_fetched, hl] at h
    obtain ⟨h1, h2⟩ := Prod.ext_iff.mp h
    dsimp only at h2
    exact ⟨s1, rfl, h2.symm⟩

theorem expand_tags_of_ensure_error (r : Remote) (fuel : Nat) (tags : List String)
    (s s' : FetchState) (e : Unit)
    (h : ensure_all_tags_fetched r fuel tags s = (.error e, s')) :
    expand_tags r fuel tags s = (.error e, s') := by
  simp only [expand_tags, h]

/-! ## Claim theorems -/

theorem resolve_direction_spec (cu cv : Bool) (u v : String) :
    (cu = false → cv = true → resolve_direction cu cv u v = (u, v)) ∧
    (cu = true → cv = false → resolve_direction cu cv u v = (v, u)) ∧
    (cu = cv → u.length < v.length → resolve_direction cu cv u v = (v, u)) ∧
    (cu = cv → v.length < u.length → resolve_direction cu cv u v = (u, v)) ∧
    (cu = cv → u.length = v.length → pyLt u v = true →
      resolve_direction cu cv u v = (v, u)) ∧
    (cu = cv → u.length = v.length → pyLt u v = false →
      resolve_direction cu cv u v = (u, v)) := by
  have heur : ∀ c : Bool, resolve_direction c c u v =
      (if u.length < v.length then (v, u)
       else if v.length < u.length then (u, v)
       else if pyLt u v then (v, u) else (u, v)) := by
    intro c
    cases c <;> rfl
  cases cu <;> cases cv
  · refine ⟨fun _ h => absurd h (by decide), fun h _ => absurd h (by decide),
      ?_, ?_, ?_, ?_⟩ <;> intro _
    · intro hlen
      rw [heur, if_pos hlen]
    · intro hlen
      rw [heur, if_neg (by omega), if_pos hlen]
    · intro hlen hlt
      rw [heur, if_neg (by omega), if_neg (by omega), if_pos hlt]
    · intro hlen hlt
      rw [heur, if_neg (by omega), if_neg (by omega),
        if_neg (by rw [hlt]; decide)]
  · exact ⟨fun _ _ => rfl, fun h _ => absurd h (by decide),
      fun h => absurd h (by decide), fun h => absurd h (by decide),
      fun h => absurd h (by decide), fun h => absurd h (by decide)⟩
  · exact ⟨fun h _ => absurd h (by decide), fun _ _ => rfl,
      fun h => absurd h (by decide), fun h => absurd h (by decide),
      fun h => absurd h (by decide), fun h => absurd h (by decide)⟩
  · refine ⟨fun h _ => absurd h (by decide), fun _ h => absurd h (by decide),
      ?_, ?_, ?_, ?_⟩ <;> intro _
    · intro hlen
      rw [heur, if_pos hlen]
    · intro hlen
      rw [heur, if_neg (by omega), if_pos hlen]
    · intro hlen hlt
      rw [heur, if_neg (by omega), if_neg (by omega), if_pos hlt]
    · intro hlen hlt
      rw [heur, if_neg (by omega), if_neg (by omega),
        if_neg (by rw [hlt]; decide)]

/-- C1: after a fetch-and-validate cycle of `expand_tags` that ends without a
rate-limit signal (the closure-fetch loop run to convergence followed by the
directionality-repair pass), no unordered pair of distinct tags has alias
edges in both directions in the resulting graph. -/
theorem c1_no_bidirectional_after_cycle (r : Remote) (fuel : Nat)
    (tags : List String) (s s' : FetchState)
    (h : ensure_all_tags_fetched r fuel tags s = (.ok (), s'))
    (u v : String) (huv : u ≠ v) :
    ¬ (has_alias s'.graph u v = true ∧ has_alias s'.graph v u = true) := by
  obtain ⟨s1, _, hs'⟩ := ensure_all_ok_graph r fuel tags s s' h
  rw [hs']
  exact validate_no_bidirectional s1.graph u v huv

/-- C2: for every bidirectional pair the validator repairs, both directed
edges are removed and exactly one is re-inserted (surviving to the end of the
pass), in the direction given by the ordered rule chain: the non-canonical tag
becomes the antecedent when exactly one tag is canonical; otherwise the longer
name becomes the antecedent; at equal lengths the lexicographically larger
name becomes the antecedent. -/
theorem c2_pair_repair_direction (g : TagGraph) (l1 l2 : List (String × String))
    (u v : String) (hsplit : bidirectional_pairs g = l1 ++ (u, v) :: l2)
    (huv : u ≠ v) :
    has_alias (validate_alias_directionality g)
      (resolve_direction (is_canonical (l1.foldl fix_pair g) u)
        (is_canonical (l1.foldl fix_pair g) v) u v).1
      (resolve_direction (is_canonical (l1.foldl fix_pair g) u)
        (is_canonical (l1.foldl fix_pair g) v) u v).2 = true ∧
    has_alias (validate_alias_directionality g)
      (resolve_direction (is_canonical (l1.foldl fix_pair g) u)
        (is_canonical (l1.foldl fix_pair g) v) u v).2
      (resolve_direction (is_canonical (l1.foldl fix_pair g) u)
        (is_canonical (l1.foldl fix_pair g) v) u v).1 = false ∧
    (is_canonical (l1.foldl fix_pair g) u = false →
      is_canonical (l1.foldl fix_pair g) v = true →
      resolve_direction (is_canonical (l1.foldl fix_pair g) u)
        (is_canonical (l1.foldl fix_pair g) v) u v = (u, v)) ∧
    (is_canonical (l1.foldl fix_pair g) u = true →
      is_canonical (l1.foldl fix_pair g) v = false →
      resolve_direction (is_canonical (l1.foldl fix_pair g) u)
        (is_canonical (l1.foldl fix_pair g) v) u v = (v, u)) ∧
    (is_canonical (l1.foldl fix_pair g) u = is_canonical (l1.foldl fix_pair g) v →
      u.length < v.length →
      resolve_direction (is_canonical (l1.foldl fix_pair g) u)
        (is_canonical (l1.foldl fix_pair g) v) u v = (v, u)) ∧
    (is_canonical (l1.foldl fix_pair g) u = is_canonical (l1.foldl fix_pair g) v →
      v.length < u.length →
      resolve_direction (is_canonical (l1.foldl fix_pair g) u)
        (is_canonical (l1.foldl fix_pair g) v) u v = (u, v)) ∧
    (is_canonical (l1.foldl fix_pair g) u = is_canonical (l1.foldl fix_pair g) v →
      u.length = v.length → pyLt u v = true →
      resolve_direction (is_canonical (l1.foldl fix_pair g) u)
        (is_canonical (l1.foldl fix_pair g) v) u v = (v, u)) ∧
    (is_canonical (l1.foldl fix_pair g) u = is_canonical (l1.foldl fix_pair g) v →
      u.length = v.length → pyLt u v = false →
      resolve_direction (is_canonical (l1.foldl fix_pair g) u)
        (is_canonical (l1.foldl fix_pair g) v) u v = (u, v)) := by
  have hkeep := validate_keeps_fix_result g l1 l2 (u, v) hsplit
  have hres := fix_pair_resolved (l1.foldl fix_pair g) (u, v) huv
  have hspec := resolve_direction_spec (is_canonical (l1.foldl fix_pair g) u)
    (is_canonical (l1.foldl fix_pair g) v) u v
  refine ⟨?_, ?_, hspec.1, hspec.2.1, hspec.2.2.1, hspec.2.2.2.1,
    hspec.2.2.2.2.1, hspec.2.2.2.2.2⟩
  · rcases resolve_direction_cases (is_canonical (l1.foldl fix_pair g) u)
      (is_canonical (l1.foldl fix_pair g) v) u v with hd | hd <;> rw [hd] <;>
      rw [hd] at hres <;> dsimp only at hres ⊢
    · rw [hkeep.1]
      exact hres.1
    · rw [hkeep.2]
      exact hres.1
  · rcases resolve_direction_cases (is_canonical (l1.foldl fix_pair g) u)
      (is_canonical (l1.foldl fix_pair g) v) u v with hd | hd <;> rw [hd] <;>
      rw [hd] at hres <;> dsimp only at hres ⊢
    · rw [hkeep.2]
      exact hres.2
    · rw [hkeep.1]
      exact hres.2

/-- C9: when the validator resolves a bidirectional pair, both directed edges
are still present at the moment canonical status is queried (fixing one pair
never removes edges between the tags of another pair), so both tags have an
outgoing alias edge and `is_canonical` returns false for both; hence rule (a)
is unreachable and the direction is decided by the name-length or alphabetical
heuristic alone. -/
theorem c9_canonical_branch_unreachable (g : TagGraph)
    (l1 l2 : List (String × String)) (u v : String)
    (hsplit : bidirectional_pairs g = l1 ++ (u, v) :: l2) :
    has_alias (l1.foldl fix_pair g) u v = true ∧
    has_alias (l1.foldl fix_pair g) v u = true ∧
    is_canonical (l1.foldl fix_pair g) u = false ∧
    is_canonical (l1.foldl fix_pair g) v = false ∧
    (∀ (h : TagGraph) (q : String × String) (x y : String),
      (x, y) ≠ (q.1, q.2) → (x, y) ≠ (q.2, q.1) →
      has_alias (fix_pair h q) x y = has_alias h x y) ∧
    resolve_direction (is_canonical (l1.foldl fix_pair g) u)
      (is_canonical (l1.foldl fix_pair g) v) u v =
      (if u.length < v.length then (v, u)
       else if v.length < u.length then (u, v)
       else if pyLt u v then (v, u) else (u, v)) := by
  have hpres := bidir_pair_present_at_fix g l1 l2 (u, v) hsplit
  have hcu : is_canonical (l1.foldl fix_pair g) u = false :=
    is_canonical_eq_false _ u v hpres.1
  have hcv : is_canonical (l1.foldl fix_pair g) v = false :=
    is_canonical_eq_false _ v u hpres.2
  refine ⟨hpres.1, hpres.2, hcu, hcv, fix_pair_other, ?_⟩
  rw [hcu, hcv]
  rfl

/-- C3: a rate-limit signal during the closure-fetch loop makes `expand_tags`
abort with the same signal and no partial result; every tag already fetched
remains recorded in the graph, is reported cached by `is_tag_cached`, is never
returned by `get_unfetched_tags` again, and (when the auto-saved snapshot was
in sync at entry) is durable in the snapshot saved after the last completed
batch; within the failing batch, all tags processed before the failing one are
fetched in the surviving graph. -/
theorem c3_rate_limit_aborts (r : Remote) (fuel : Nat) (tags : List String)
    (s s' : FetchState) (e : Unit)
    (h : ensure_all_tags_fetched r fuel tags s = (.error e, s')) :
    expand_tags r fuel tags s = (.error e, s') ∧
    (∀ t, is_tag_fetched s.graph t = true → is_tag_fetched s'.graph t = true) ∧
    (∀ t, is_tag_fetched s'.graph t = true →
      is_tag_cached s'.graph t = true ∧
      ∀ cands, t ∉ get_unfetched_tags s'.graph cands) ∧
    (s.saved = s.graph →
      ∀ t, is_tag_fetched s.graph t = true → is_tag_fetched s'.saved t = true) ∧
    (∀ (ts : List String) (s0 : FetchState) (e0 : Unit) (s0' : FetchState),
      batch_fetch_tags r s0 ts = (.error e0, s0') →
      ∃ pre bad rest, ts = pre ++ bad :: rest ∧
        ∀ t ∈ pre, is_tag_fetched s0'.graph t = true) := by
  have hl := ensure_all_error r fuel tags s s' e h
  have hls := ensure_loop_state r fuel tags.dedup s
  rw [hl] at hls
  dsimp only at hls
  refine ⟨expand_tags_of_ensure_error r fuel tags s s' e h, hls.1, ?_, hls.2.2, ?_⟩
  · intro t ht
    exact ⟨ht, fun cands => not_mem_get_unfetched _ _ _ ht⟩
  · intro ts s0 e0 s0' hb
    exact batch_fetch_tags_error_prefix r ts s0 e0 s0' hb

theorem ensure_loop_warm (r : Remote) (fuel : Nat) (tp : List String)
    (s : FetchState) (warm : get_unfetched_tags s.graph tp = []) :
    ensure_loop r fuel tp s = (.ok (), s) := by
  cases fuel with
  | zero => rfl
  | succ n =>
    by_cases htp : tp.isEmpty = true
    · simp only [ensure_loop, if_pos htp]
    · simp only [ensure_loop, if_neg htp, warm, List.isEmpty_nil, if_true]

/-- C5: with an unchanged remote source and a warm, already-consistent cache
(every requested tag fetched, no bidirectional alias pairs), two consecutive
`expand_tags` calls return the identical (expanded set, frequency) result and
make zero remote API requests, on the second call in particular. -/
theorem c5_idempotent_warm_cache (r : Remote) (fuel : Nat) (tags : List String)
    (s : FetchState) (warm : get_unfetched_tags s.graph tags.dedup = [])
    (consistent : bidirectional_pairs s.graph = []) :
    ∃ res s1 s2,
      expand_tags r fuel tags s = (.ok res, s1) ∧
      expand_tags r fuel tags s1 = (.ok res, s2) ∧
      s1.calls = s.calls ∧ s2.calls = s.calls := by
  have hrun : expand_tags r fuel tags s = (.ok (graph_expand_tags s.graph tags), s) := by
    have hloop := ensure_loop_warm r fuel tags.dedup s warm
    have hens : ensure_all_tags_fetched r fuel tags s = (.ok (), s) := by
      simp only [ensure_all_tags_fetched, hloop]
      rw [validate_of_no_pairs s.graph consistent]
    simp only [expand_tags, hens]
  exact ⟨graph_expand_tags s.graph tags, s, s, hrun, hrun, rfl, rfl⟩

/-- C7: during the per-tag fetch of a non-deprecated tag `t`, every surviving
alias consequent `c` ends with the directed alias edge `t → c` recorded, is in
the discovered set, and is marked fetched in the resulting graph, while the
only alias lookup issued by the procedure is the one for `t` itself (so `c`'s
own aliases are not fetched in that pass). -/
theorem c7_alias_consequents (r : Remote) (s : FetchState) (t : String)
    (d : List String) (s' : FetchState)
    (hdep : r.deprecated t = .ok false)
    (h : fetch_tag r s t = (.ok d, s')) :
    ∃ impls als s2 s3,
      fetch_tag_implications r (record_call s (RemoteCall.deprCall t)) t =
        (.ok impls, s2) ∧
      fetch_tag_aliases r s2 t = (.ok als, s3) ∧
      d = impls ++ als ∧
      (∀ c ∈ als,
        has_alias s'.graph t c = true ∧ c ∈ d ∧
        is_tag_fetched s'.graph c = true) ∧
      (∀ x, RemoteCall.aliasCall x ∈ s'.calls →
        RemoteCall.aliasCall x ∈ s.calls ∨ x = t) := by
  obtain ⟨impls, als, s2, s3, hi, ha, hd, hs'⟩ :=
    fetch_tag_ok_shape r s t d s' hdep h
  have hfs := fetch_tag_state r s t
  rw [h] at hfs
  dsimp only at hfs
  refine ⟨impls, als, s2, s3, hi, ha, hd, ?_, hfs.2.2.2.2⟩
  intro c hc
  have hmem := mark_aliases_mem t als
    (record_implications t (record_op s3 (GraphOp.addTagOp t false true)) impls) c hc
  rw [← hs'] at hmem
  exact ⟨hmem.1, by rw [hd]; exact List.mem_append_right _ hc, hmem.2⟩

/-- C8 amended: for a non-deprecated tag `t`, `addTag(t, deprecated=false,
fetched=true)` is performed as the first graph operation of the per-tag fetch
procedure, before t's implication and alias edges are recorded (not after
them); the tag is nonetheless fetched in the resulting graph, as no later
operation of the procedure unmarks it. -/
theorem c8_add_tag_first (r : Remote) (s : FetchState) (t : String)
    (d : List String) (s' : FetchState)
    (hdep : r.deprecated t = .ok false)
    (h : fetch_tag r s t = (.ok d, s')) :
    (∃ tail, s'.ops = s.ops ++ GraphOp.addTagOp t false true :: tail ∧
      ∀ op ∈ tail, (∃ c, op = GraphOp.addImplicationOp t c) ∨
        (∃ c, op = GraphOp.addAliasOp t c) ∨
        ∃ c, op = GraphOp.addTagOp c false true) ∧
    is_tag_fetched s'.graph t = true := by
  obtain ⟨impls, als, s2, s3, hi, ha, hd, hs'⟩ :=
    fetch_tag_ok_shape r s t d s' hdep h
  obtain ⟨cl1, hs2, _⟩ :=
    fetch_tag_implications_state r (record_call s (RemoteCall.deprCall t)) t
  rw [hi] at hs2
  dsimp only at hs2
  have hs2ops : s2.ops = s.ops := by rw [hs2]; rfl
  obtain ⟨cl2, hs3, _⟩ := fetch_tag_aliases_state r s2 t
  rw [ha] at hs3
  dsimp only at hs3
  have hs3ops : s3.ops = s.ops := by rw [hs3]; exact hs2ops
  obtain ⟨implops, himplops, hallimpl⟩ := record_implications_ops t impls
    (record_op s3 (GraphOp.addTagOp t false true))
  obtain ⟨aliasops, haliasops, hallalias⟩ := mark_aliases_ops t als
    (record_implications t (record_op s3 (GraphOp.addTagOp t false true)) impls)
  refine ⟨?_, fetch_tag_ok_fetched r s t d s' h⟩
  refine ⟨implops ++ aliasops, ?_, ?_⟩
  · rw [hs', haliasops, himplops]
    show ((s3.ops ++ [GraphOp.addTagOp t false true]) ++ implops) ++ aliasops = _
    rw [hs3ops, List.append_assoc, List.append_assoc, List.singleton_append]
  · intro op hop
    rcases List.mem_append.mp hop with h1 | h2
    · obtain ⟨c, _, he⟩ := hallimpl op h1
      exact Or.inl ⟨c, he⟩
    · rcases hallalias op h2 with ⟨c, _, he⟩ | ⟨c, _, he⟩
      · exact Or.inr (Or.inl ⟨c, he⟩)
      · exact Or.inr (Or.inr ⟨c, he⟩)

/-- C4 counterexample: a `KeyError` whose message contains the throttling
phrase "rate limit" but not "429" yields the empty result rather than the
rate-limit error, so the claimed "exactly when ... any exception whose message
contains a throttling phrase" equivalence fails at this input. -/
theorem c4_counterexample :
    ¬ ((is_rate_limit (api_request (ApiOutcome.keyErrorOutcome "rate limit exceeded")) = true) ↔
      (str_contains "rate limit exceeded" "429" = true ∨
        throttle_phrases.any
          (fun p => str_contains "rate limit exceeded" p) = true)) := by
  decide

/-- C4 amended: the wrapper raises the rate-limit error exactly when the call
fails with a `KeyError` whose message mentions "429", or with a non-`KeyError`
exception whose lowercased message contains a throttling phrase; every other
failure yields the empty result instead of an exception. -/
theorem c4_error_classification (o : ApiOutcome) :
    (is_rate_limit (api_request o) = true ↔
      ((∃ m, o = ApiOutcome.keyErrorOutcome m ∧ str_contains m "429" = true) ∨
       (∃ m, o = ApiOutcome.otherErrorOutcome m ∧
         throttle_phrases.any (fun p => str_contains (lower_str m) p) = true))) ∧
    (∀ m, o = ApiOutcome.keyErrorOutcome m → str_contains m "429" = false →
      api_request o = .ok []) ∧
    (∀ m, o = ApiOutcome.otherErrorOutcome m →
      throttle_phrases.any (fun p => str_contains (lower_str m) p) = false →
      api_request o = .ok []) := by
  cases o with
  | success resp =>
    refine ⟨?_, ?_, ?_⟩
    · constructor
      · intro hc
        exact absurd hc (by simp [api_request, is_rate_limit])
      · rintro (⟨m, hm, _⟩ | ⟨m, hm, _⟩) <;> exact absurd hm (by simp)
    · intro m hm
      exact absurd hm (by simp)
    · intro m hm
      exact absurd hm (by simp)
  | keyErrorOutcome msg =>
    by_cases hc : str_contains msg "429" = true
    · refine ⟨?_, ?_, ?_⟩
      · constructor
        · intro _
          exact Or.inl ⟨msg, rfl, hc⟩
        · intro _
          simp only [api_request, if_pos hc]
          rfl
      · intro m hm hfalse
        injection hm with hm
        rw [← hm] at hfalse
        rw [hc] at hfalse
        exact absurd hfalse (by decide)
      · intro m hm
        exact absurd hm (by simp)
    · have hc' : str_contains msg "429" = false := Bool.eq_false_iff.mpr hc
      refine ⟨?_, ?_, ?_⟩
      · constructor
        · intro hrl
          simp only [api_request, if_neg hc, is_rate_limit] at hrl
          exact absurd hrl (by decide)
        · rintro (⟨m, hm, h429⟩ | ⟨m, hm, _⟩)
          · injection hm with hm
            rw [← hm] at h429
            rw [hc'] at h429
            exact absurd h429 (by decide)
          · exact absurd hm (by simp)
      · intro m hm _
        simp only [api_request, if_neg hc]
      · intro m hm
        exact absurd hm (by simp)
  | otherErrorOutcome msg =>
    by_cases hc : throttle_phrases.any (fun p => str_contains (lower_str msg) p) = true
    · refine ⟨?_, ?_, ?_⟩
      · constructor
        · intro _
          exact Or.inr ⟨msg, rfl, hc⟩
        · intro _
          simp only [api_request, if_pos hc]
          rfl
      · intro m hm
        exact absurd hm (by simp)
      · intro m hm hfalse
        injection hm with hm
        rw [← hm] at hfalse
        rw [hc] at hfalse
        exact absurd hfalse (by decide)
    · have hc' : throttle_phrases.any (fun p => str_contains (lower_str msg) p) = false :=
        Bool.eq_false_iff.mpr hc
      refine ⟨?_, ?_, ?_⟩
      · constructor
        · intro hrl
          simp only [api_request, if_neg hc, is_rate_limit] at hrl
          exact absurd hrl (by decide)
        · rintro (⟨m, hm, _⟩ | ⟨m, hm, hph⟩)
          · exact absurd hm (by simp)
          · injection hm with hm
            rw [← hm] at hph
            rw [hc'] at hph
            exact absurd hph (by decide)
      · intro m hm
        exact absurd hm (by simp)
      · intro m hm _
        simp only [api_request, if_neg hc]

/-- C10: once a tag is marked fetched (as happens for an alias consequent at
discovery time), `get_unfetched_tags` never returns it again, it stays fetched
through the rest of the run and all later `expand_tags` calls, and no new
remote implications or aliases lookup for it is ever made. -/
theorem c10_fetched_never_refetched (r : Remote) (c : String) :
    (∀ (g : TagGraph) (cands : List String), is_tag_fetched g c = true →
      c ∉ get_unfetched_tags g cands) ∧
    (∀ (fuel : Nat) (tp : List String) (s : FetchState) (res : Except Unit Unit)
      (s' : FetchState), is_tag_fetched s.graph c = true →
      ensure_loop r fuel tp s = (res, s') →
      is_tag_fetched s'.graph c = true ∧
      (RemoteCall.implCall c ∈ s'.calls → RemoteCall.implCall c ∈ s.calls) ∧
      (RemoteCall.aliasCall c ∈ s'.calls → RemoteCall.aliasCall c ∈ s.calls)) ∧
    (∀ (fuel : Nat) (tags : List String) (s : FetchState)
      (res : Except Unit (List String × (String → Nat))) (s' : FetchState),
      is_tag_fetched s.graph c = true →
      expand_tags r fuel tags s = (res, s') →
      is_tag_fetched s'.graph c = true ∧
      (RemoteCall.implCall c ∈ s'.calls → RemoteCall.implCall c ∈ s.calls) ∧
      (RemoteCall.aliasCall c ∈ s'.calls → RemoteCall.aliasCall c ∈ s.calls)) := by
  have loopFact : ∀ (fuel : Nat) (tp : List String) (s : FetchState)
      (res : Except Unit Unit) (s' : FetchState),
      is_tag_fetched s.graph c = true → ensure_loop r fuel tp s = (res, s') →
      is_tag_fetched s'.graph c = true ∧
      (RemoteCall.implCall c ∈ s'.calls → RemoteCall.implCall c ∈ s.calls) ∧
      (RemoteCall.aliasCall c ∈ s'.calls → RemoteCall.aliasCall c ∈ s.calls) := by
    intro fuel tp s res s' hc hl
    have hls := ensure_loop_state r fuel tp s
    rw [hl] at hls
    dsimp only at hls
    exact ⟨hls.1 c hc, (hls.2.1 c hc).1, (hls.2.1 c hc).2⟩
  refine ⟨fun g cands hc => not_mem_get_unfetched g cands c hc, loopFact, ?_⟩
  intro fuel tags s res s' hc hrun
  rcases hl : ensure_loop r fuel tags.dedup s with ⟨rl, s1⟩
  have hfact := loopFact fuel tags.dedup s rl s1 hc hl
  cases rl with
  | error e =>
    have : expand_tags r fuel tags s = (.error e, s1) := by
      simp only [expand_tags, ensure_all_tags_fetched, hl]
    rw [this] at hrun
    obtain ⟨h1, h2⟩ := Prod.ext_iff.mp hrun
    dsimp only at h2
    subst h2
    exact hfact
  | ok u =>
    cases u
    have : expand_tags r fuel tags s =
        (.ok (graph_expand_tags (validate_alias_directionality s1.graph) tags),
          { s1 with graph := validate_alias_directionality s1.graph }) := by
      simp only [expand_tags, ensure_all_tags_fetched, hl]
    rw [this] at hrun
    obtain ⟨h1, h2⟩ := Prod.ext_iff.mp hrun
    dsimp only at h2
    subst h2
    refine ⟨?_, hfact.2.1, hfact.2.2⟩
    show is_tag_fetched (validate_alias_directionality s1.graph) c = true
    rw [is_tag_fetched_validate]
    exact hfact.1

/-! ## Closure lemmas for alias groups -/

/-- One step of adjacency as a relation. -/
def adj_rel (adj : String → List String) (z x : String) : Prop := x ∈ adj z

theorem mem_closure_step (adj : String → List String) (cur : List String)
    (x : String) :
    x ∈ closure_step adj cur ↔ x ∈ cur ∨ ∃ z ∈ cur, x ∈ adj z := by
  unfold closure_step
  rw [List.mem_dedup, List.mem_append, List.mem_flatMap]

theorem closure_step_congr (adj : String → List String) (cur cur' : List String)
    (hiff : ∀ x, x ∈ cur ↔ x ∈ cur') (x : String) :
    x ∈ closure_step adj cur ↔ x ∈ closure_step adj cur' := by
  rw [mem_closure_step, mem_closure_step]
  constructor
  · rintro (h1 | ⟨z, hz, hzx⟩)
    · exact Or.inl ((hiff x).mp h1)
    · exact Or.inr ⟨z, (hiff z).mp hz, hzx⟩
  · rintro (h1 | ⟨z, hz, hzx⟩)
    · exact Or.inl ((hiff x).mpr h1)
    · exact Or.inr ⟨z, (hiff z).mpr hz, hzx⟩

theorem closure_iter_mono (adj : String → List String) :
    ∀ (n : Nat) (cur cur' : List String),
      (∀ x, x ∈ cur → x ∈ cur') →
      ∀ x, x ∈ closure_iter adj n cur → x ∈ closure_iter adj n cur'
  | 0, _, _, hsub, x, hx => hsub x hx
  | n + 1, cur, cur', hsub, x, hx => by
    refine closure_iter_mono adj n (closure_step adj cur) (closure_step adj cur')
      ?_ x hx
    intro z hz
    rw [mem_closure_step] at hz ⊢
    rcases hz with h1 | ⟨w, hw, hwz⟩
    · exact Or.inl (hsub z h1)
    · exact Or.inr ⟨w, hsub w hw, hwz⟩

theorem subset_closure_iter (adj : String → List String) :
    ∀ (n : Nat) (cur : List String) (x : String),
      x ∈ cur → x ∈ closure_iter adj n cur
  | 0, _, _, hx => hx
  | n + 1, cur, x, hx =>
    subset_closure_iter adj n (closure_step adj cur) x
      ((mem_closure_step adj cur x).mpr (Or.inl hx))

theorem closure_iter_succ_last (adj : String → List String) :
    ∀ (n : Nat) (cur : List String) (x : String),
      x ∈ closure_iter adj (n + 1) cur ↔
        x ∈ closure_step adj (closure_iter adj n cur)
  | 0, _, _ => Iff.rfl
  | n + 1, cur, x => closure_iter_succ_last adj n (closure_step adj cur) x

theorem closure_iter_grow (adj : String → List String) (n : Nat)
    (cur : List String) (x : String) (hx : x ∈ closure_iter adj n cur) :
    x ∈ closure_iter adj (n + 1) cur := by
  rw [closure_iter_succ_last]
  exact (mem_closure_step adj _ x).mpr (Or.inl hx)

theorem closure_iter_bounded (adj : String → List String) (U : Finset String)
    (hadj : ∀ z x, x ∈ adj z → x ∈ U) :
    ∀ (n : Nat) (cur : List String), (∀ x ∈ cur, x ∈ U) →
      ∀ x ∈ closure_iter adj n cur, x ∈ U
  | 0, _, hcur, x, hx => hcur x hx
  | n + 1, cur, hcur, x, hx => by
    refine closure_iter_bounded adj U hadj n (closure_step adj cur) ?_ x hx
    intro z hz
    rw [mem_closure_step] at hz
    rcases hz with h1 | ⟨w, _, hwz⟩
    · exact hcur z h1
    · exact hadj w z hwz

theorem closure_iter_card_chain (adj : String → List String) (cur : List String) :
    ∀ N : Nat,
      (∀ n < N, ∃ x, x ∈ closure_iter adj (n + 1) cur ∧
        x ∉ closure_iter adj n cur) →
      N ≤ ((closure_iter adj N cur).toFinset).card
  | 0, _ => Nat.zero_le _
  | N + 1, hnew => by
    have ih := closure_iter_card_chain adj cur N
      (fun n hn => hnew n (Nat.lt_succ_of_lt hn))
    obtain ⟨x, hx1, hx2⟩ := hnew N (Nat.lt_succ_self N)
    have hsub : (closure_iter adj N cur).toFinset ⊆
        (closure_iter adj (N + 1) cur).toFinset := by
      intro z hz
      rw [List.mem_toFinset] at hz ⊢
      exact closure_iter_grow adj N cur z hz
    have hss : (closure_iter adj N cur).toFinset ⊂
        (closure_iter adj (N + 1) cur).toFinset := by
      refine Finset.ssubset_iff_of_subset hsub |>.mpr ?_
      exact ⟨x, List.mem_toFinset.mpr hx1, fun hc => hx2 (List.mem_toFinset.mp hc)⟩
    have := Finset.card_lt_card hss
    omega

theorem closure_iter_stabilizes (adj : String → List String) (U : Finset String)
    (hadj : ∀ z x, x ∈ adj z → x ∈ U) (cur : List String)
    (hcur : ∀ x ∈ cur, x ∈ U) :
    ∃ n ≤ U.card, ∀ x, x ∈ closure_iter adj (n + 1) cur ↔
      x ∈ closure_iter adj n cur := by
  by_contra hcon
  push_neg at hcon
  have key : ∀ n < U.card + 1, ∃ x, x ∈ closure_iter adj (n + 1) cur ∧
      x ∉ closure_iter adj n cur := by
    intro n hn
    obtain ⟨x, hx⟩ := hcon n (Nat.lt_succ_iff.mp hn)
    rcases hx with ⟨h1, h2⟩ | ⟨h1, h2⟩
    · exact ⟨x, h1, h2⟩
    · exact absurd (closure_iter_grow adj n cur x h2) h1
  have hchain := closure_iter_card_chain adj cur (U.card + 1) key
  have hsub : (closure_iter adj (U.card + 1) cur).toFinset ⊆ U := by
    intro x hx
    rw [List.mem_toFinset] at hx
    exact closure_iter_bounded adj U hadj _ cur hcur x hx
  have := Finset.card_le_card hsub
  omega

theorem closure_iter_persist (adj : String → List String) (cur : List String)
    (n : Nat)
    (hstab : ∀ x, x ∈ closure_iter adj (n + 1) cur ↔ x ∈ closure_iter adj n cur) :
    ∀ m, n ≤ m → ∀ x, x ∈ closure_iter adj m cur ↔ x ∈ closure_iter adj n cur := by
  intro m
  induction m with
  | zero =>
    intro h x
    rw [Nat.le_zero.mp h]
  | succ m ih =>
    intro hm x
    rcases Nat.eq_or_lt_of_le hm with he | hlt
    · rw [← he]
    · have hnm : n ≤ m := Nat.lt_succ_iff.mp hlt
      exact (closure_iter_succ_last adj m cur x).trans
        ((closure_step_congr adj _ _ (ih hnm) x).trans
          ((closure_iter_succ_last adj n cur x).symm.trans (hstab x)))

theorem closure_iter_closed (adj : String → List String) (U : Finset String)
    (hadj : ∀ z x, x ∈ adj z → x ∈ U) (cur : List String)
    (hcur : ∀ x ∈ cur, x ∈ U) (z : String)
    (hz : z ∈ closure_iter adj U.card cur) (x : String) (hx : x ∈ adj z) :
    x ∈ closure_iter adj U.card cur := by
  obtain ⟨n, hn, hstab⟩ := closure_iter_stabilizes adj U hadj cur hcur
  have hpers := closure_iter_persist adj cur n hstab U.card hn
  have hz' := (hpers z).mp hz
  have hx' : x ∈ closure_iter adj (n + 1) cur := by
    rw [closure_iter_succ_last]
    exact (mem_closure_step adj _ x).mpr (Or.inr ⟨z, hz', hx⟩)
  exact (hpers x).mpr ((hstab x).mp hx')

theorem closure_iter_sound (adj : String → List String) (a : String) :
    ∀ (n : Nat) (cur : List String),
      (∀ y ∈ cur, Relation.ReflTransGen (adj_rel adj) a y) →
      ∀ x ∈ closure_iter adj n cur, Relation.ReflTransGen (adj_rel adj) a x
  | 0, _, hcur, x, hx => hcur x hx
  | n + 1, cur, hcur, x, hx => by
    refine closure_iter_sound adj a n (closure_step adj cur) ?_ x hx
    intro y hy
    rw [mem_closure_step] at hy
    rcases hy with h1 | ⟨z, hz, hzy⟩
    · exact hcur y h1
    · exact (hcur z hz).tail hzy

theorem closure_reach_complete (adj : String → List String) (U : Finset String)
    (hadj : ∀ z x, x ∈ adj z → x ∈ U) (a : String) (ha : a ∈ U) (x : String)
    (hr : Relation.ReflTransGen (adj_rel adj) a x) :
    x ∈ closure_iter adj U.card [a] := by
  have hcur : ∀ y ∈ [a], y ∈ U := by
    intro y hy
    rw [List.mem_singleton] at hy
    rw [hy]
    exact ha
  induction hr with
  | refl => exact subset_closure_iter adj U.card [a] a (List.mem_singleton.mpr rfl)
  | tail hab hbc ih => exact closure_iter_closed adj U hadj [a] hcur _ ih _ hbc

theorem mem_closure_iter_iff_reach (adj : String → List String)
    (U : Finset String) (hadj : ∀ z x, x ∈ adj z → x ∈ U) (a : String)
    (ha : a ∈ U) (x : String) :
    x ∈ closure_iter adj U.card [a] ↔
      Relation.ReflTransGen (adj_rel adj) a x := by
  constructor
  · refine closure_iter_sound adj a U.card [a] ?_ x
    intro y hy
    rw [List.mem_singleton] at hy
    rw [hy]
  · exact closure_reach_complete adj U hadj a ha x

theorem mem_alias_adjacent (g : TagGraph) (z x : String) :
    x ∈ alias_adjacent g z ↔
      (has_alias g z x = true ∨ has_alias g x z = true) := by
  unfold alias_adjacent
  rw [List.mem_filterMap]
  constructor
  · rintro ⟨e, he, hfe⟩
    by_cases h1 : e.2 = EdgeType.alias ∧ e.1.1 = z
    · rw [if_pos h1] at hfe
      rw [Option.some_inj] at hfe
      left
      rw [has_alias_iff]
      have he' : e = ((z, x), EdgeType.alias) := by
        obtain ⟨⟨k1, k2⟩, ty⟩ := e
        dsimp only at h1 hfe
        rw [h1.1, h1.2, hfe]
      rw [← he']
      exact he
    · rw [if_neg h1] at hfe
      by_cases h2 : e.2 = EdgeType.alias ∧ e.1.2 = z
      · rw [if_pos h2] at hfe
        rw [Option.some_inj] at hfe
        right
        rw [has_alias_iff]
        have he' : e = ((x, z), EdgeType.alias) := by
          obtain ⟨⟨k1, k2⟩, ty⟩ := e
          dsimp only at h2 hfe
          rw [h2.1, h2.2, hfe]
        rw [← he']
        exact he
      · rw [if_neg h2] at hfe
        exact absurd hfe (by simp)
  · rintro (h | h)
    · rw [has_alias_iff] at h
      exact ⟨((z, x), EdgeType.alias), h, by rw [if_pos ⟨rfl, rfl⟩]⟩
    · rw [has_alias_iff] at h
      refine ⟨((x, z), EdgeType.alias), h, ?_⟩
      by_cases hxz : x = z
      · rw [if_pos (show ((x, z), EdgeType.alias).2 = EdgeType.alias ∧
          ((x, z), EdgeType.alias).1.1 = z from ⟨rfl, hxz⟩)]
        dsimp only
        rw [hxz]
      · rw [if_neg (show ¬ (((x, z), EdgeType.alias).2 = EdgeType.alias ∧
          ((x, z), EdgeType.alias).1.1 = z) from fun hc => hxz hc.2),
          if_pos (show ((x, z), EdgeType.alias).2 = EdgeType.alias ∧
          ((x, z), EdgeType.alias).1.2 = z from ⟨rfl, rfl⟩)]

theorem alias_adjacent_symm (g : TagGraph) (z x : String) :
    x ∈ alias_adjacent g z ↔ z ∈ alias_adjacent g x := by
  rw [mem_alias_adjacent, mem_alias_adjacent]
  exact Or.comm

theorem alias_adjacent_mem_univ (g : TagGraph) (t z x : String)
    (h : x ∈ alias_adjacent g z) : x ∈ node_univ g t := by
  unfold node_univ
  rw [Finset.mem_insert]
  right
  rw [List.mem_toFinset, List.mem_flatMap]
  rw [mem_alias_adjacent] at h
  rcases h with h | h
  · rw [has_alias_iff] at h
    exact ⟨((z, x), EdgeType.alias), h, by simp⟩
  · rw [has_alias_iff] at h
    exact ⟨((x, z), EdgeType.alias), h, by simp⟩

theorem mem_get_alias_group_iff (g : TagGraph) (t y : String) :
    y ∈ get_alias_group g t ↔
      Relation.ReflTransGen (adj_rel (alias_adjacent g)) t y := by
  unfold get_alias_group
  exact mem_closure_iter_iff_reach (alias_adjacent g) (node_univ g t)
    (fun z x hx => alias_adjacent_mem_univ g t z x hx) t
    (Finset.mem_insert_self t _) y

theorem mem_get_alias_group_self (g : TagGraph) (t : String) :
    t ∈ get_alias_group g t :=
  (mem_get_alias_group_iff g t t).mpr Relation.ReflTransGen.refl

/-- Tags in the same alias group have the same alias group: the undirected
connected component is an equivalence class. -/
theorem get_alias_group_eq_of_mem (g : TagGraph) (x y : String)
    (h : y ∈ get_alias_group g x) :
    ∀ z, z ∈ get_alias_group g x ↔ z ∈ get_alias_group g y := by
  rw [mem_get_alias_group_iff] at h
  have hsym : Symmetric (Relation.ReflTransGen (adj_rel (alias_adjacent g))) :=
    Relation.ReflTransGen.symmetric
      (fun a b hab => (alias_adjacent_symm g a b).mp hab)
  intro z
  rw [mem_get_alias_group_iff, mem_get_alias_group_iff]
  exact ⟨fun hz => (hsym h).trans hz, fun hz => h.trans hz⟩

theorem expanded_set_group_closed (g : TagGraph) (tags : List String)
    (x y : String) (hx : x ∈ expanded_set g tags)
    (hy : y ∈ get_alias_group g x) : y ∈ expanded_set g tags := by
  unfold expanded_set at hx ⊢
  rw [List.mem_dedup, List.mem_flatMap] at hx
  obtain ⟨b, hb, hxb⟩ := hx
  rw [List.mem_dedup, List.mem_flatMap]
  exact ⟨b, hb, (get_alias_group_eq_of_mem g b x hxb y).mpr hy⟩

/-- C6: in the frequency map returned by graph expansion, any two tags of the
same alias group carry the same frequency, and that shared value is the sum of
the pre-alias-sharing frequencies over all members of the group (assigned to
every member, not divided among them). -/
theorem c6_alias_group_shared_frequency (g : TagGraph) (tags : List String)
    (x y : String) (h : y ∈ get_alias_group g x) :
    (graph_expand_tags g tags).2 x = (graph_expand_tags g tags).2 y ∧
    (x ∈ (graph_expand_tags g tags).1 →
      (graph_expand_tags g tags).2 x =
        Finset.sum (get_alias_group g x).toFinset (pre_alias_freq g tags)) := by
  have hgroup : (get_alias_group g x).toFinset = (get_alias_group g y).toFinset := by
    apply Finset.ext
    intro z
    rw [List.mem_toFinset, List.mem_toFinset]
    exact get_alias_group_eq_of_mem g x y h z
  have hxy : x ∈ get_alias_group g y := by
    rw [← get_alias_group_eq_of_mem g x y h x]
    exact mem_get_alias_group_self g x
  constructor
  · show (if x ∈ expanded_set g tags then
        Finset.sum (get_alias_group g x).toFinset (pre_alias_freq g tags) else 0) =
      (if y ∈ expanded_set g tags then
        Finset.sum (get_alias_group g y).toFinset (pre_alias_freq g tags) else 0)
    by_cases hx : x ∈ expanded_set g tags
    · rw [if_pos hx, if_pos (expanded_set_group_closed g tags x y hx h), hgroup]
    · rw [if_neg hx, if_neg (fun hy =>
        hx (expanded_set_group_closed g tags y x hy hxy))]
  · intro hx
    have hx' : x ∈ expanded_set g tags := hx
    show (if x ∈ expanded_set g tags then
        Finset.sum (get_alias_group g x).toFinset (pre_alias_freq g tags) else 0) = _
    rw [if_pos hx']

/-! ## Concrete runs used as witnesses -/

/-- The empty graph. -/
def empty_graph : TagGraph := ⟨[], []⟩

/-- An empty run state over the empty graph. -/
def empty_state : FetchState := ⟨empty_graph, empty_graph, [], []⟩

/-- A graph in which the remote reported both alias directions between `a`
and `b`. -/
def bidir_graph : TagGraph :=
  ⟨[("a", ⟨false, true⟩), ("b", ⟨false, true⟩)],
   [(("a", "b"), EdgeType.alias), (("b", "a"), EdgeType.alias)]⟩

/-- Run state whose graph and snapshot both hold `bidir_graph`. -/
def bidir_state : FetchState := ⟨bidir_graph, bidir_graph, [], []⟩

/-- A remote source that answers every lookup with no data. -/
def quiet_remote : Remote :=
  ⟨fun _ => .ok false, fun _ => .ok [], fun _ => .ok []⟩

/-- A remote source that rate-limits every deprecated-status lookup. -/
def limited_remote : Remote :=
  ⟨fun _ => .error (), fun _ => .ok [], fun _ => .ok []⟩

/-- A warm one-tag graph: `z` is fetched and nothing else is known. -/
def warm_graph : TagGraph := ⟨[("z", ⟨false, true⟩)], []⟩

/-- Run state whose graph and snapshot both hold `warm_graph`. -/
def warm_state : FetchState := ⟨warm_graph, warm_graph, [], []⟩

/-- A consistent graph with the single alias edge `a → b`. -/
def pair_graph : TagGraph :=
  ⟨[("a", ⟨false, true⟩), ("b", ⟨false, true⟩)], [(("a", "b"), EdgeType.alias)]⟩

/-- A remote source reporting the alias `p → q` and nothing else. -/
def alias_remote : Remote :=
  ⟨fun _ => .ok false, fun _ => .ok [],
   fun t => if t = "p" then .ok ["q"] else .ok []⟩

/-- A remote source reporting the implication `t → c` and nothing else. -/
def c8_remote : Remote :=
  ⟨fun _ => .ok false, fun t => if t = "t" then .ok ["c"] else .ok [],
   fun _ => .ok []⟩

theorem c1_witness :
    ¬ (has_alias (validate_alias_directionality bidir_graph) "a" "b" = true ∧
       has_alias (validate_alias_directionality bidir_graph) "b" "a" = true) :=
  c1_no_bidirectional_after_cycle quiet_remote 1 ["a"] bidir_state
    ⟨validate_alias_directionality bidir_graph, bidir_graph, [], []⟩ (by rfl)
    "a" "b" (by decide)

theorem c2_witness :
    has_alias (validate_alias_directionality bidir_graph)
      (resolve_direction (is_canonical bidir_graph "a")
        (is_canonical bidir_graph "b") "a" "b").1
      (resolve_direction (is_canonical bidir_graph "a")
        (is_canonical bidir_graph "b") "a" "b").2 = true :=
  (c2_pair_repair_direction bidir_graph [] [] "a" "b" (by decide) (by decide)).1

theorem c9_witness : is_canonical bidir_graph "a" = false :=
  (c9_canonical_branch_unreachable bidir_graph [] [] "a" "b" (by decide)).2.2.1

theorem c3_witness :
    expand_tags limited_remote 1 ["b"] warm_state =
      (.error (), ⟨warm_graph, warm_graph, [RemoteCall.deprCall "b"], []⟩) :=
  (c3_rate_limit_aborts limited_remote 1 ["b"] warm_state
    ⟨warm_graph, warm_graph, [RemoteCall.deprCall "b"], []⟩ () (by rfl)).1

theorem c5_witness :
    ∃ res s1 s2,
      expand_tags quiet_remote 1 ["z"] warm_state = (.ok res, s1) ∧
      expand_tags quiet_remote 1 ["z"] s1 = (.ok res, s2) ∧
      s1.calls = warm_state.calls ∧ s2.calls = warm_state.calls :=
  c5_idempotent_warm_cache quiet_remote 1 ["z"] warm_state (by decide) (by decide)

theorem c6_witness :
    (graph_expand_tags pair_graph ["a"]).2 "a" =
      (graph_expand_tags pair_graph ["a"]).2 "b" :=
  (c6_alias_group_shared_frequency pair_graph ["a"] "a" "b" (by decide)).1

theorem c7_witness :
    ∃ impls als s2 s3,
      fetch_tag_implications alias_remote
        (record_call empty_state (RemoteCall.deprCall "p")) "p" =
        (Except.ok impls, s2) ∧
      fetch_tag_aliases alias_remote s2 "p" = (Except.ok als, s3) ∧
      ["q"] = impls ++ als ∧
      (∀ c ∈ als,
        has_alias (fetch_tag alias_remote empty_state "p").2.graph "p" c = true ∧
        c ∈ ["q"] ∧
        is_tag_fetched (fetch_tag alias_remote empty_state "p").2.graph c = true) ∧
      (∀ x, RemoteCall.aliasCall x ∈ (fetch_tag alias_remote empty_state "p").2.calls →
        RemoteCall.aliasCall x ∈ empty_state.calls ∨ x = "p") :=
  c7_alias_consequents alias_remote empty_state "p" ["q"]
    ((fetch_tag alias_remote empty_state "p").2) (by rfl) (by rfl)

theorem c8_witness :
    is_tag_fetched (fetch_tag c8_remote empty_state "t").2.graph "t" = true :=
  (c8_add_tag_first c8_remote empty_state "t" ["c"]
    ((fetch_tag c8_remote empty_state "t").2) (by rfl) (by rfl)).2

/-- C8: the actual operation order of the per-tag fetch at a concrete input:
`addTag(t, deprecated=false, fetched=true)` is the first recorded graph
operation, and the last one is the implication-edge recording — so addTag is
not performed as the final step after the edges. -/
theorem c8_counterexample :
    (fetch_tag c8_remote empty_state "t").2.ops =
      [GraphOp.addTagOp "t" false true, GraphOp.addImplicationOp "t" "c"] ∧
    (fetch_tag c8_remote empty_state "t").2.ops.getLast? ≠
      some (GraphOp.addTagOp "t" false true) := by
  decide
